import Mathlib

/-!
Verification of the logos fact database core (`src/db.rs` and its collaborators).

The data model and operations below are shallowly embedded from the Rust
source.  Components whose source files are absent from the repository snapshot
(the persistent B-tree `Index`, the `IdentMap`, and the current-generation
`Value`/`Record`/`Clause::substitute`) are modelled from the specification;
each such definition carries a doc comment saying so.  Machine integers
(`u64` entity ids) are modelled as `Nat`: ids are only ever incremented by
one from small starting points, so wraparound is unreachable in the behaviour
the claims describe.  Timestamps (`UTC::now()`) enter the model as an explicit
`Nat` parameter `now` passed to the operations that read the clock.
-/

namespace Logos

/-- Modelled from the spec (§3): the current-generation `Value` enum is not in
the snapshot (`src/lib.rs` holds an older two-variant version); the spec lists
the variants in the order `String(text)`, `Entity(id)`, `Ident(name)`,
`Timestamp(instant)` with variants ordered by tag in that order, payloads by
natural order, and `String ""` minimal.  `Entity(u64)` ids and timestamps are
`Nat` here. -/
inductive Value where
  | str (s : String)
  | entity (e : Nat)
  | ident (name : String)
  | timestamp (t : Nat)
deriving DecidableEq, Repr

/-- The tag index of a `Value` variant, in the spec's declaration order. -/
def Value.tag : Value → Nat
  | .str _ => 0
  | .entity _ => 1
  | .ident _ => 2
  | .timestamp _ => 3

/-- Modelled from the spec (§3): the stored quadruple
`(entity, attribute, value, tx)`; the `attribute` field is an entity id.
The source field name `attribute` is a Lean keyword, so it is `attr` here. -/
structure Record where
  entity : Nat
  attr : Nat
  value : Value
  tx : Nat
deriving DecidableEq, Repr

/-- Lexicographic comparison of char-code lists: the order `Ord String`
realises in the Rust source, written so that it kernel-evaluates. -/
def charListLtb : List Char → List Char → Bool
  | [], [] => false
  | [], _ :: _ => true
  | _ :: _, [] => false
  | c :: cs, d :: ds =>
    if c.toNat < d.toNat then true
    else if c.toNat = d.toNat then charListLtb cs ds
    else false

/-- Strict lexicographic comparison of strings. -/
def strLtb (s t : String) : Bool := charListLtb s.data t.data

/-- Strict comparison on `Value`: tag order first, then payload order, as the
Rust derived `Ord` on the enum produces. -/
def Value.ltb : Value → Value → Bool
  | .str s, .str t => strLtb s t
  | .entity m, .entity n => decide (m < n)
  | .ident s, .ident t => strLtb s t
  | .timestamp m, .timestamp n => decide (m < n)
  | v, w => decide (v.tag < w.tag)

/-- A string as the list of its character codes. -/
def skey (s : String) : List ℕ := s.data.map Char.toNat

/-- Key of a `Value` in a lexicographic order type: tag, then the string
payload (or `""`), then the numeric payload (or `0`). -/
def vkey : Value → ℕ ×ₗ List ℕ ×ₗ ℕ
  | .str s => toLex (0, toLex (skey s, 0))
  | .entity n => toLex (1, toLex ([], n))
  | .ident s => toLex (2, toLex (skey s, 0))
  | .timestamp t => toLex (3, toLex ([], t))

theorem char_toNat_injective : Function.Injective Char.toNat := by
  intro a b h
  apply Char.eq_of_val_eq
  apply UInt32.eq_of_toBitVec_eq
  exact BitVec.eq_of_toNat_eq h

theorem skey_injective : Function.Injective skey := by
  intro s t h
  have hdata : s.toList = t.toList :=
    (List.map_injective_iff.mpr char_toNat_injective) h
  exact String.toList_inj.mp hdata

theorem charListLtb_iff : ∀ l m : List Char,
    charListLtb l m = true ↔
      List.Lex (· < ·) (l.map Char.toNat) (m.map Char.toNat) := by
  intro l
  induction l with
  | nil =>
    intro m
    cases m with
    | nil =>
      simp only [charListLtb, List.map_nil, Bool.false_eq_true, false_iff]
      exact List.Lex.not_nil_right _ _
    | cons d ds =>
      simp only [charListLtb, List.map_cons, true_iff]
      exact List.Lex.nil
  | cons c cs ih =>
    intro m
    cases m with
    | nil =>
      simp only [charListLtb, List.map_cons, List.map_nil,
        Bool.false_eq_true, false_iff]
      exact List.Lex.not_nil_right _ _
    | cons d ds =>
      simp only [charListLtb, List.map_cons]
      by_cases h1 : c.toNat < d.toNat
      · rw [if_pos h1]
        simp only [true_iff]
        exact List.Lex.rel h1
      · rw [if_neg h1]
        by_cases h2 : c.toNat = d.toNat
        · rw [if_pos h2, ih ds, h2]
          exact Iff.symm List.Lex.cons_iff
        · rw [if_neg h2]
          simp only [Bool.false_eq_true, false_iff]
          generalize c.toNat = x at h1 h2 ⊢
          generalize d.toNat = y at h1 h2 ⊢
          intro hlex
          cases hlex with
          | cons h => exact h2 rfl
          | rel h => exact h1 h

theorem strLtb_iff (s t : String) : strLtb s t = true ↔ skey s < skey t :=
  charListLtb_iff s.data t.data

theorem vkey_injective : Function.Injective vkey := by
  intro v w h
  cases v <;> cases w <;>
    simp only [vkey, toLex_inj, Prod.mk.injEq] at h <;>
    simp_all [skey_injective.eq_iff]

theorem vkey_lt_iff (v w : Value) : Value.ltb v w = true ↔ vkey v < vkey w := by
  cases v <;> cases w <;>
    simp [Value.ltb, vkey, Value.tag, Prod.Lex.lt_iff, strLtb_iff,
      skey_injective.eq_iff]

theorem vkey_str_empty_le (v : Value) : vkey (.str "") ≤ vkey v := by
  have hk : skey "" = [] := rfl
  cases v with
  | str s =>
    have h : skey "" ≤ skey s := hk ▸ List.nil_le
    rcases h.lt_or_eq with h | h <;> simp [vkey, Prod.Lex.le_iff, h]
  | entity n => simp [vkey, hk, Prod.Lex.le_iff]
  | ident s => simp [vkey, hk, Prod.Lex.le_iff]
  | timestamp t => simp [vkey, hk, Prod.Lex.le_iff]

/-- The key type under which records are compared in an index. -/
abbrev RKey : Type := ℕ ×ₗ ℕ ×ₗ (ℕ ×ₗ List ℕ ×ₗ ℕ) ×ₗ ℕ

/-- EAVT ordering key: lexicographic by (entity, attribute, value, tx),
as the Rust derived `Ord` on `Record` produces (`src/lib.rs` comment: "The
derived ordering is used by the EAV index"). -/
def keyE (r : Record) : RKey :=
  toLex (r.entity, toLex (r.attr, toLex (vkey r.value, r.tx)))

/-- AEVT ordering key: (attribute, entity, value, tx), as the `AEV` wrapper's
`Ord` in `src/lib.rs` produces. -/
def keyAe (r : Record) : RKey :=
  toLex (r.attr, toLex (r.entity, toLex (vkey r.value, r.tx)))

/-- AVET ordering key: (attribute, value, entity, tx), as the `AVE` wrapper's
`Ord` in `src/lib.rs` produces. -/
def keyAv (r : Record) : ℕ ×ₗ (ℕ ×ₗ List ℕ ×ₗ ℕ) ×ₗ ℕ ×ₗ ℕ :=
  toLex (r.attr, toLex (vkey r.value, toLex (r.entity, r.tx)))

/-- Executable strict EAVT comparison. -/
def Record.ltbE (r s : Record) : Bool :=
  decide (r.entity < s.entity) || (decide (r.entity = s.entity) &&
    (decide (r.attr < s.attr) || (decide (r.attr = s.attr) &&
      (Value.ltb r.value s.value || (decide (r.value = s.value) &&
        decide (r.tx < s.tx))))))

/-- Executable strict AEVT comparison. -/
def Record.ltbAe (r s : Record) : Bool :=
  decide (r.attr < s.attr) || (decide (r.attr = s.attr) &&
    (decide (r.entity < s.entity) || (decide (r.entity = s.entity) &&
      (Value.ltb r.value s.value || (decide (r.value = s.value) &&
        decide (r.tx < s.tx))))))

/-- Executable strict AVET comparison. -/
def Record.ltbAv (r s : Record) : Bool :=
  decide (r.attr < s.attr) || (decide (r.attr = s.attr) &&
    (Value.ltb r.value s.value || (decide (r.value = s.value) &&
      (decide (r.entity < s.entity) || (decide (r.entity = s.entity) &&
        decide (r.tx < s.tx))))))

theorem vkey_eq_iff (v w : Value) : vkey v = vkey w ↔ v = w :=
  ⟨fun h => vkey_injective h, fun h => h ▸ rfl⟩

theorem keyE_injective : Function.Injective keyE := by
  intro r s h
  simp only [keyE, toLex_inj, Prod.mk.injEq] at h
  obtain ⟨h1, h2, h3, h4⟩ := h
  cases r; cases s
  simp_all [vkey_eq_iff]

theorem keyAe_injective : Function.Injective keyAe := by
  intro r s h
  simp only [keyAe, toLex_inj, Prod.mk.injEq] at h
  obtain ⟨h1, h2, h3, h4⟩ := h
  cases r; cases s
  simp_all [vkey_eq_iff]

theorem keyAv_injective : Function.Injective keyAv := by
  intro r s h
  simp only [keyAv, toLex_inj, Prod.mk.injEq] at h
  obtain ⟨h1, h2, h3, h4⟩ := h
  cases r; cases s
  simp_all [vkey_eq_iff]

theorem ltbE_iff (r s : Record) : Record.ltbE r s = true ↔ keyE r < keyE s := by
  simp [Record.ltbE, keyE, Prod.Lex.lt_iff, vkey_lt_iff, vkey_eq_iff,
    Bool.or_eq_true, Bool.and_eq_true, decide_eq_true_iff, and_assoc]

theorem ltbAe_iff (r s : Record) :
    Record.ltbAe r s = true ↔ keyAe r < keyAe s := by
  simp [Record.ltbAe, keyAe, Prod.Lex.lt_iff, vkey_lt_iff, vkey_eq_iff,
    Bool.or_eq_true, Bool.and_eq_true, decide_eq_true_iff, and_assoc]

theorem ltbAv_iff (r s : Record) :
    Record.ltbAv r s = true ↔ keyAv r < keyAv s := by
  simp [Record.ltbAv, keyAv, Prod.Lex.lt_iff, vkey_lt_iff, vkey_eq_iff,
    Bool.or_eq_true, Bool.and_eq_true, decide_eq_true_iff, and_assoc]

/-- Modelled from the spec (§4.2): an `Index` is an immutable ordered set of
records; `insert` "returns a new index whose root reflects the insertion" and
"duplicates (equal under `Order`) are idempotent".  The B-tree sources are not
in the snapshot, so the index is its in-order record sequence: a list kept
strictly sorted by the comparator `ltb`. -/
def insertSorted (ltb : Record → Record → Bool) (r : Record) :
    List Record → List Record
  | [] => [r]
  | h :: t =>
    if ltb r h then r :: h :: t
    else if r = h then h :: t
    else h :: insertSorted ltb r t

/-- Modelled from the spec (§4.2): `iter_range_from(lower..)` is the "lazy
sequence starting at the first record ≥ `lower` under `Order`"; on a sorted
list that is the suffix obtained by dropping the records below `lower`. -/
def iterRangeFrom (ltb : Record → Record → Bool) (start : Record)
    (l : List Record) : List Record :=
  l.dropWhile (fun r => ltb r start)

theorem mem_insertSorted (ltb : Record → Record → Bool) (r a : Record) :
    ∀ l : List Record, (a ∈ insertSorted ltb r l ↔ a = r ∨ a ∈ l) := by
  intro l
  induction l with
  | nil => simp [insertSorted]
  | cons h t ih =>
    simp only [insertSorted]
    by_cases h1 : ltb r h = true
    · rw [if_pos h1]; simp [List.mem_cons]
    · rw [if_neg h1]
      by_cases h2 : r = h
      · rw [if_pos h2]; subst h2; simp [List.mem_cons]
      · rw [if_neg h2]; simp only [List.mem_cons, ih]; tauto

theorem pairwise_insertSorted {K : Type} [LinearOrder K] (k : Record → K)
    (ltb : Record → Record → Bool)
    (hb : ∀ a b, ltb a b = true ↔ k a < k b)
    (hinj : Function.Injective k) (r : Record) :
    ∀ l : List Record, l.Pairwise (fun a b => k a < k b) →
      (insertSorted ltb r l).Pairwise (fun a b => k a < k b) := by
  intro l
  induction l with
  | nil => intro _; simp [insertSorted]
  | cons h t ih =>
    intro hl
    rw [List.pairwise_cons] at hl
    obtain ⟨hh, ht⟩ := hl
    simp only [insertSorted]
    by_cases h1 : ltb r h = true
    · rw [if_pos h1]
      have hrh : k r < k h := (hb r h).mp h1
      refine List.pairwise_cons.mpr ⟨?_, List.pairwise_cons.mpr ⟨hh, ht⟩⟩
      intro b hbmem
      rcases List.mem_cons.mp hbmem with rfl | hbt
      · exact hrh
      · exact lt_trans hrh (hh b hbt)
    · rw [if_neg h1]
      by_cases h2 : r = h
      · rw [if_pos h2]; exact List.pairwise_cons.mpr ⟨hh, ht⟩
      · rw [if_neg h2]
        refine List.pairwise_cons.mpr ⟨?_, ih ht⟩
        intro b hbmem
        rcases (mem_insertSorted ltb r b t).mp hbmem with rfl | hbt
        · rcases lt_trichotomy (k h) (k b) with hlt | heq | hgt
          · exact hlt
          · exact absurd (hinj heq) (fun he => h2 he.symm)
          · exact absurd ((hb b h).mpr hgt) h1
        · exact hh b hbt

theorem nodup_of_pairwise_lt {K : Type} [LinearOrder K] (k : Record → K)
    (l : List Record) (hl : l.Pairwise (fun a b => k a < k b)) : l.Nodup :=
  hl.imp (fun hab => fun he => absurd (he ▸ hab) (lt_irrefl _))

theorem takeWhile_eq_filter_of_ge {K : Type} [LinearOrder K] (k : Record → K)
    (p : Record → Bool) (start : Record)
    (H2 : ∀ r r', p r' = true → k start ≤ k r → k r ≤ k r' → p r = true) :
    ∀ l : List Record, l.Pairwise (fun a b => k a < k b) →
      (∀ r ∈ l, k start ≤ k r) → l.takeWhile p = l.filter p := by
  intro l
  induction l with
  | nil => intro _ _; rfl
  | cons h t ih =>
    intro hl hge
    rw [List.pairwise_cons] at hl
    obtain ⟨hh, ht⟩ := hl
    have hgeh : k start ≤ k h := hge h (List.mem_cons_self h t)
    have hget : ∀ r ∈ t, k start ≤ k r :=
      fun r hr => hge r (List.mem_cons_of_mem h hr)
    cases hp : p h with
    | true =>
      simp only [List.takeWhile_cons, List.filter_cons, hp, if_true]
      rw [ih ht hget]
    | false =>
      simp only [List.takeWhile_cons, List.filter_cons, hp,
        Bool.false_eq_true, if_false]
      have hall : ∀ c ∈ t, p c = false := by
        intro c hc
        cases hpc : p c with
        | false => rfl
        | true =>
          have hph : p h = true := H2 h c hpc hgeh (le_of_lt (hh c hc))
          rw [hph] at hp; exact hp
      exact (List.filter_eq_nil_iff.mpr (by
        intro c hc; simp [hall c hc])).symm

/-- The contiguous-range lemma behind the `take_while` scans: on a strictly
sorted list, dropping the records below `start` and then taking while `p`
holds yields exactly the records satisfying `p`, provided every `p`-record is
at or above `start` and the `p`-records are upward closed between `start` and
any `p`-record. -/
theorem rangeScan_eq_filter {K : Type} [LinearOrder K] (k : Record → K)
    (ltb : Record → Record → Bool)
    (hb : ∀ a b, ltb a b = true ↔ k a < k b)
    (p : Record → Bool) (start : Record)
    (H1 : ∀ r, p r = true → k start ≤ k r)
    (H2 : ∀ r r', p r' = true → k start ≤ k r → k r ≤ k r' → p r = true) :
    ∀ l : List Record, l.Pairwise (fun a b => k a < k b) →
      (iterRangeFrom ltb start l).takeWhile p = l.filter p := by
  intro l
  induction l with
  | nil => intro _; rfl
  | cons h t ih =>
    intro hl
    rw [List.pairwise_cons] at hl
    obtain ⟨hh, ht⟩ := hl
    by_cases hdrop : ltb h start = true
    · have hlt : k h < k start := (hb h start).mp hdrop
      have hph : p h = false := by
        cases hp : p h with
        | false => rfl
        | true => exact absurd (H1 h hp) (not_le.mpr hlt)
      simp only [iterRangeFrom, List.dropWhile_cons, hdrop, if_true,
        List.filter_cons, hph, Bool.false_eq_true, if_false]
      exact ih ht
    · have hge : k start ≤ k h := by
        rcases le_or_lt (k start) (k h) with hle | hlt
        · exact hle
        · exact absurd ((hb h start).mpr hlt) hdrop
      simp only [iterRangeFrom, List.dropWhile_cons, hdrop,
        Bool.false_eq_true, if_false]
      refine takeWhile_eq_filter_of_ge k p start H2 (h :: t)
        (List.pairwise_cons.mpr ⟨hh, ht⟩) ?_
      intro r hr
      rcases List.mem_cons.mp hr with rfl | hrt
      · exact hge
      · exact le_trans hge (le_of_lt (hh r hrt))

/-- Modelled from the spec (§3, §4.3): the `ident` module is not in the
snapshot.  An `IdentMap` maps attribute names to entity ids; `add` overwrites
an existing name (last-writer-wins), which the entry list realises by
prepending, with `get_entity` taking the first match. -/
structure IdentMap where
  entries : List (String × Nat)
deriving DecidableEq, Repr

def IdentMap.add (m : IdentMap) (name : String) (e : Nat) : IdentMap :=
  ⟨(name, e) :: m.entries⟩

def IdentMap.get_entity (m : IdentMap) (name : String) : Option Nat :=
  (m.entries.find? (fun p => p.1 == name)).map (·.2)

/-- A query variable (`Var` in `src/lib.rs` is a newtype over its name). -/
abbrev Var : Type := String

/-- `Term<T>` from `src/lib.rs`: either a bound value or an unbound
variable. -/
inductive Term (α : Type) where
  | Bound (x : α)
  | Unbound (v : Var)
deriving DecidableEq, Repr

/-- `Clause` from `src/lib.rs`: entity, attribute (a name), and value
positions.  The source field name `attribute` is a Lean keyword, so it is
`attr` here. -/
structure Clause where
  entity : Term Nat
  attr : Term String
  value : Term Value
deriving DecidableEq, Repr

/-- A binding environment (`Binding = HashMap<Var, Value>`), as an
association list: insertion prepends after erasing the key, lookup takes the
first match. -/
abbrev Binding : Type := List (Var × Value)

def blookup (b : Binding) (v : Var) : Option Value :=
  (b.find? (fun p => p.1 == v)).map (·.2)

def binsert (v : Var) (val : Value) (b : Binding) : Binding :=
  (v, val) :: b.filter (fun p => !(p.1 == v))

/-- `Fact` (user-level assertion): entity, attribute name, value. -/
structure Fact where
  entity : Nat
  attr : String
  value : Value
deriving DecidableEq, Repr

/-- `TxItem` from `src/lib.rs`.  A `NewEntity` item carries its
attribute/value pairs as a list; the source uses a `HashMap` whose iteration
order is unspecified (spec §9), and no claim depends on the order. -/
inductive TxItem where
  | Addition (f : Fact)
  | Retraction (f : Fact)
  | NewEntity (pairs : List (String × Value))
deriving DecidableEq, Repr

structure Tx where
  items : List TxItem
deriving DecidableEq, Repr

structure TxReport where
  new_entities : List Nat
deriving DecidableEq, Repr

/-- `DbContents` from `src/db.rs`: the persistence root.  The index root
refs name immutable content-addressed trees, so each ref is modelled by the
record sequence it denotes; `next_id` and the ident map are stored as is.
The KV store's committed root blob is a value of this type
(`get_contents`/`set_contents` read and replace it atomically). -/
structure DbContents where
  next_id : Nat
  idents : IdentMap
  eav : List Record
  ave : List Record
  aev : List Record
deriving DecidableEq, Repr

/-- The zero-initialized contents a fresh store reports (spec §4.1). -/
def DbContents.fresh : DbContents :=
  { next_id := 0, idents := ⟨[]⟩, eav := [], ave := [], aev := [] }

/-- The in-memory `Db` value from `src/db.rs` (minus the store handle, which
operations take and return explicitly). -/
structure Db where
  next_id : Nat
  idents : IdentMap
  eav : List Record
  ave : List Record
  aev : List Record
deriving DecidableEq, Repr

/-- `Db::get_id` (`src/db.rs:55`): return the current id and increment. -/
def Db.get_id (db : Db) : Nat × Db :=
  (db.next_id, { db with next_id := db.next_id + 1 })

/-- `Db::add` (`src/db.rs:61`): bump `next_id` past the record's entity,
insert the record into all three indexes, and extend the ident map when the
record asserts `db:ident`.  The returned flag is `true` when the Rust code
panics: the `unwrap` on the `db:ident` lookup fails, or the record asserts
`db:ident` with a non-ident value and hits the `unimplemented!()` arm
(`src/db.rs:74`).  At the panic point the index insertions and the `next_id`
bump have already happened, which the returned state reflects. -/
def Db.addRecord (db : Db) (r : Record) : Db :=
  { db with
    next_id := if db.next_id ≤ r.entity then r.entity + 1 else db.next_id
    eav := insertSorted Record.ltbE r db.eav
    ave := insertSorted Record.ltbAv r db.ave
    aev := insertSorted Record.ltbAe r db.aev }

def Db.add (db : Db) (r : Record) : Db × Bool :=
  match db.idents.get_entity "db:ident" with
  | none => (db.addRecord r, true)
  | some de =>
    if r.attr = de then
      match r.value with
      | .ident s =>
        ({ db.addRecord r with idents := db.idents.add s r.entity }, false)
      | _ => (db.addRecord r, true)
    else (db.addRecord r, false)

/-- `Db::new` (`src/db.rs:14`): load the contents, seed the ident map with
`db:ident → Entity(1)`, and if `next_id == 0` insert the three bootstrap
records through the internal `add` path.  `now` is the wall-clock instant
`UTC::now()` returns.  The flag is `true` when a bootstrap `add` panicked
(it never does; see `c4_bootstrap`). -/
def Db.new (contents : DbContents) (now : Nat) : Db × Bool :=
  let db : Db :=
    { next_id := contents.next_id
      idents := contents.idents.add "db:ident" 1
      eav := contents.eav
      ave := contents.ave
      aev := contents.aev }
  if db.next_id = 0 then
    let (db1, p1) := db.add { entity := 0, attr := 2, value := .timestamp now, tx := 0 }
    let (db2, p2) := db1.add { entity := 1, attr := 1, value := .ident "db:ident", tx := 0 }
    let (db3, p3) := db2.add { entity := 2, attr := 1, value := .ident "db:txInstant", tx := 0 }
    (db3, p1 || p2 || p3)
  else
    (db, false)

/-- `Db::save_contents` (`src/db.rs:82`): the contents blob written to the
store on commit. -/
def Db.save_contents (db : Db) : DbContents :=
  { next_id := db.next_id
    idents := db.idents
    eav := db.eav
    ave := db.ave
    aev := db.aev }

/-- The entity position of `unify` (`src/db.rs:223`): a bound term must equal
the record's entity; an unbound variable already in the environment must map
to the entity wrapped as `Value::Entity`; otherwise the wrapped entity is
recorded in the accumulated new bindings. -/
def stepEntity (env : Binding) (t : Term Nat) (fieldVal : Nat)
    (acc : Binding) : Option Binding :=
  match t with
  | .Bound e => if e = fieldVal then some acc else none
  | .Unbound var =>
    match blookup env var with
    | some v => if v = Value.entity fieldVal then some acc else none
    | none => some (binsert var (Value.entity fieldVal) acc)

/-- The attribute position of `unify` (`src/db.rs:243`): a bound name is
resolved through the ident map (unknown names fail); an unbound variable
behaves as in the entity position, wrapping as `Value::Entity`. -/
def stepAttr (env : Binding) (idents : IdentMap) (t : Term String)
    (fieldVal : Nat) (acc : Binding) : Option Binding :=
  match t with
  | .Bound a =>
    match idents.get_entity a with
    | some e => if e = fieldVal then some acc else none
    | none => none
  | .Unbound var =>
    match blookup env var with
    | some v => if v = Value.entity fieldVal then some acc else none
    | none => some (binsert var (Value.entity fieldVal) acc)

/-- The value position of `unify` (`src/db.rs:270`): values compare and bind
unwrapped. -/
def stepValue (env : Binding) (t : Term Value) (fieldVal : Value)
    (acc : Binding) : Option Binding :=
  match t with
  | .Bound v => if v = fieldVal then some acc else none
  | .Unbound var =>
    match blookup env var with
    | some v => if v = fieldVal then some acc else none
    | none => some (binsert var fieldVal acc)

/-- `unify` (`src/db.rs:220`): match a clause against a record under an
environment, returning only the new bindings. -/
def unify (env : Binding) (idents : IdentMap) (clause : Clause)
    (record : Record) : Option Binding :=
  (stepEntity env clause.entity record.entity []).bind fun acc1 =>
    (stepAttr env idents clause.attr record.attr acc1).bind fun acc2 =>
      stepValue env clause.value record.value acc2

/-- Modelled from the spec (§4.5): the current-generation
`Clause::substitute` returning `Result` is not in the snapshot (`src/lib.rs`
holds an older infallible version); per the spec, a clause term whose
variable is bound in the environment is replaced by its value, and "if the
resolved value's tag is incompatible with the position — e.g. a `String`
value where an `Entity` is required — fail with `TypeMismatch`".  The error
text "type mismatch" is fixed by the `test_type_mismatch` expectation in
`src/db.rs:453`.  The three helpers below are its per-position cases. -/
def substEntityTerm (env : Binding) : Term Nat → Except String (Term Nat)
  | .Bound e => .ok (.Bound e)
  | .Unbound var =>
    match blookup env var with
    | some (Value.entity e) => .ok (.Bound e)
    | some _ => .error "type mismatch"
    | none => .ok (.Unbound var)

def substAttrTerm (env : Binding) : Term String → Except String (Term String)
  | .Bound a => .ok (.Bound a)
  | .Unbound var =>
    match blookup env var with
    | some (Value.str s) => .ok (.Bound s)
    | some _ => .error "type mismatch"
    | none => .ok (.Unbound var)

def substValueTerm (env : Binding) : Term Value → Except String (Term Value)
  | .Bound v => .ok (.Bound v)
  | .Unbound var =>
    match blookup env var with
    | some v => .ok (.Bound v)
    | none => .ok (.Unbound var)

def Clause.substitute (clause : Clause) (env : Binding) :
    Except String Clause :=
  match substEntityTerm env clause.entity with
  | .error m => .error m
  | .ok e =>
    match substAttrTerm env clause.attr with
    | .error m => .error m
    | .ok a =>
      match substValueTerm env clause.value with
      | .error m => .error m
      | .ok v => .ok ⟨e, a, v⟩

/-- `Db::records_matching` (`src/db.rs:95`): substitute the binding into the
clause, then pick an index: AVET range scan for `(?e, a, v)`, EAVT range scan
for `(e, a, ?v)`, and a full EAVT scan filtered by the unifier otherwise.
The error text "invalid attribute" is the literal from `src/db.rs:114`. -/
def Db.records_matching (db : Db) (clause : Clause) (binding : Binding) :
    Except String (List Record) :=
  match clause.substitute binding with
  | .error m => .error m
  | .ok expanded =>
    match expanded with
    | ⟨Term.Unbound _, Term.Bound a, Term.Bound v⟩ =>
      match db.idents.get_entity a with
      | some attr =>
        .ok ((iterRangeFrom Record.ltbAv ⟨0, attr, v, 0⟩ db.ave).takeWhile
          (fun r => decide (r.attr = attr) && decide (r.value = v)))
      | none => .error "invalid attribute"
    | ⟨Term.Bound e, Term.Bound a, Term.Unbound _⟩ =>
      match db.idents.get_entity a with
      | some attr =>
        .ok ((iterRangeFrom Record.ltbE ⟨e, attr, Value.str "", 0⟩
            db.eav).takeWhile
          (fun r => decide (r.entity = e) && decide (r.attr = attr)))
      | none => .error "invalid attribute"
    | _ =>
      .ok (db.eav.filter (fun r => (unify binding db.idents clause r).isSome))

/-- The three ways a `transact` call can leave the Rust process: a report,
an `Err` return, or a panic (`unimplemented!()` or a failed `unwrap`). -/
inductive TxOutcome where
  | ok (report : TxReport)
  | err (msg : String)
  | panicked
deriving DecidableEq, Repr

/-- Result of processing a list of transaction items: the (possibly
mutated) in-memory state together with how processing ended. -/
inductive ItemsRes where
  | okR (db : Db) (news : List Nat)
  | errR (db : Db) (msg : String)
  | panicR (db : Db)
deriving Repr

/-- The in-memory state an `ItemsRes` carries, whatever the outcome. -/
def ItemsRes.state : ItemsRes → Db
  | .okR db _ => db
  | .errR db _ => db
  | .panicR db => db

/-- The inner loop of a `NewEntity` item (`src/db.rs:164`): resolve each
attribute name and add a record for the freshly allocated entity. -/
def Db.addPairs : Db → List (String × Value) → Nat → Nat → ItemsRes
  | db, [], _, _ => .okR db []
  | db, (k, v) :: rest, entity, tx =>
    match db.idents.get_entity k with
    | none => .errR db "invalid attribute"
    | some attr =>
      match db.add ⟨entity, attr, v, tx⟩ with
      | (db1, true) => .panicR db1
      | (db1, false) => Db.addPairs db1 rest entity tx

/-- The item loop of `Db::transact` (`src/db.rs:154`): additions resolve
their attribute and add a record; `NewEntity` allocates a fresh entity, adds
its pairs, and reports the entity; retractions hit `unimplemented!()`. -/
def Db.runItems : Db → List TxItem → Nat → ItemsRes
  | db, [], _ => .okR db []
  | db, item :: rest, tx =>
    match item with
    | .Addition f =>
      match db.idents.get_entity f.attr with
      | none => .errR db "invalid attribute"
      | some attr =>
        match db.add ⟨f.entity, attr, f.value, tx⟩ with
        | (db1, true) => .panicR db1
        | (db1, false) => Db.runItems db1 rest tx
    | .NewEntity pairs =>
      let (entity, db1) := db.get_id
      match Db.addPairs db1 pairs entity tx with
      | .okR db2 _ =>
        match Db.runItems db2 rest tx with
        | .okR db3 news => .okR db3 (entity :: news)
        | other => other
      | .errR db2 m => .errR db2 m
      | .panicR db2 => .panicR db2
    | .Retraction _ => .panicR db

/-- `Db::transact` (`src/db.rs:149`): allocate the transaction entity, add
its `db:txInstant` record, process the items in order, and only on success
write the new contents to the store with `save_contents`.  The store (the
committed `DbContents` root blob) is passed and returned explicitly; the
in-memory state is returned even on failure, because the Rust code mutates
`self` as it goes. -/
def Db.transact (db : Db) (store : DbContents) (tx : Tx) (now : Nat) :
    Db × DbContents × TxOutcome :=
  let (tx_entity, db1) := db.get_id
  match db1.idents.get_entity "db:txInstant" with
  | none => (db1, store, .panicked)
  | some attr =>
    match db1.add ⟨tx_entity, attr, .timestamp now, tx_entity⟩ with
    | (db2, true) => (db2, store, .panicked)
    | (db2, false) =>
      match Db.runItems db2 tx.items tx_entity with
      | .okR db3 news => (db3, db3.save_contents, .ok ⟨news⟩)
      | .errR db3 m => (db3, store, .err m)
      | .panicR db3 => (db3, store, .panicked)

structure Query where
  find : List Var
  clauses : List Clause
deriving DecidableEq, Repr

/-- `QueryResult` (`src/lib.rs:31`): the found variables and the result
rows. -/
structure QueryResult where
  find : List Var
  rows : List Binding
deriving DecidableEq, Repr

/-- `Db::query` (`src/db.rs:180`): iteratively refine the set of partial
bindings clause by clause, then project each binding onto the found
variables. -/
def Db.query (db : Db) (q : Query) : Except String QueryResult := do
  let bindings ← q.clauses.foldlM (fun bindings clause =>
    bindings.foldlM (fun acc binding => do
      let recs ← db.records_matching clause binding
      pure (acc ++ recs.filterMap (fun r =>
        (unify binding db.idents clause r).map
          (fun delta => delta ++ binding)))) []) [([] : Binding)]
  pure ⟨q.find, bindings.map (fun b => b.filter (fun p => q.find.contains p.1))⟩

/-! ### Basic facts about `Db.add` -/

theorem add_eav (db : Db) (r : Record) :
    (db.add r).1.eav = insertSorted Record.ltbE r db.eav := by
  unfold Db.add
  split
  · rfl
  · split
    · split <;> rfl
    · rfl

theorem add_ave (db : Db) (r : Record) :
    (db.add r).1.ave = insertSorted Record.ltbAv r db.ave := by
  unfold Db.add
  split
  · rfl
  · split
    · split <;> rfl
    · rfl

theorem add_aev (db : Db) (r : Record) :
    (db.add r).1.aev = insertSorted Record.ltbAe r db.aev := by
  unfold Db.add
  split
  · rfl
  · split
    · split <;> rfl
    · rfl

theorem add_next_id (db : Db) (r : Record) :
    (db.add r).1.next_id =
      if db.next_id ≤ r.entity then r.entity + 1 else db.next_id := by
  unfold Db.add
  split
  · rfl
  · split
    · split <;> rfl
    · rfl

theorem add_next_id_mono (db : Db) (r : Record) :
    db.next_id ≤ (db.add r).1.next_id := by
  rw [add_next_id]; split <;> omega

theorem add_entity_lt (db : Db) (r : Record) :
    r.entity < (db.add r).1.next_id := by
  rw [add_next_id]; split <;> omega

theorem add_idents_cases (db : Db) (r : Record) :
    (db.add r).1.idents = db.idents ∨
      ∃ s, r.value = .ident s ∧
        (db.add r).1.idents = db.idents.add s r.entity := by
  unfold Db.add
  split
  · exact Or.inl rfl
  · split
    · split
      · next s hv => exact Or.inr ⟨s, hv, rfl⟩
      · exact Or.inl rfl
    · exact Or.inl rfl

theorem mem_add_eav (db : Db) (r a : Record) :
    a ∈ (db.add r).1.eav ↔ a = r ∨ a ∈ db.eav := by
  rw [add_eav]; exact mem_insertSorted _ _ _ _

theorem mem_add_ave (db : Db) (r a : Record) :
    a ∈ (db.add r).1.ave ↔ a = r ∨ a ∈ db.ave := by
  rw [add_ave]; exact mem_insertSorted _ _ _ _

theorem mem_add_aev (db : Db) (r a : Record) :
    a ∈ (db.add r).1.aev ↔ a = r ∨ a ∈ db.aev := by
  rw [add_aev]; exact mem_insertSorted _ _ _ _

/-! ### The item loop: `next_id` monotonicity and index growth -/

theorem addPairs_next_id_mono :
    ∀ (pairs : List (String × Value)) (db : Db) (e t : Nat),
      db.next_id ≤ (Db.addPairs db pairs e t).state.next_id := by
  intro pairs
  induction pairs with
  | nil => intro db e t; exact le_refl _
  | cons p rest ih =>
    intro db e t
    obtain ⟨k, v⟩ := p
    simp only [Db.addPairs]
    cases hm : db.idents.get_entity k with
    | none => exact le_refl _
    | some attr =>
      dsimp only
      have hmono := add_next_id_mono db ⟨e, attr, v, t⟩
      cases hadd : db.add ⟨e, attr, v, t⟩ with
      | mk db1 flag =>
        rw [hadd] at hmono
        cases flag
        · dsimp only [ItemsRes.state]
          exact le_trans hmono (ih db1 e t)
        · dsimp only [ItemsRes.state]
          exact hmono

theorem runItems_next_id_mono :
    ∀ (items : List TxItem) (db : Db) (t : Nat),
      db.next_id ≤ (Db.runItems db items t).state.next_id := by
  intro items
  induction items with
  | nil => intro db t; exact le_refl _
  | cons item rest ih =>
    intro db t
    cases item with
    | Addition f =>
      simp only [Db.runItems]
      cases hm : db.idents.get_entity f.attr with
      | none => exact le_refl _
      | some attr =>
        dsimp only
        have hmono := add_next_id_mono db ⟨f.entity, attr, f.value, t⟩
        cases hadd : db.add ⟨f.entity, attr, f.value, t⟩ with
        | mk db1 flag =>
          rw [hadd] at hmono
          cases flag
          · dsimp only [ItemsRes.state]
            exact le_trans hmono (ih db1 t)
          · dsimp only [ItemsRes.state]
            exact hmono
    | NewEntity pairs =>
      simp only [Db.runItems, Db.get_id]
      have hpairs := addPairs_next_id_mono pairs
        { db with next_id := db.next_id + 1 } db.next_id t
      cases hp : Db.addPairs { db with next_id := db.next_id + 1 }
          pairs db.next_id t with
      | okR db2 news2 =>
        rw [hp] at hpairs
        simp only [ItemsRes.state] at hpairs
        dsimp only
        have hrest := ih db2 t
        cases hr : Db.runItems db2 rest t with
        | okR db3 news3 =>
          rw [hr] at hrest
          simp only [ItemsRes.state] at hrest ⊢
          omega
        | errR db3 m =>
          rw [hr] at hrest
          simp only [ItemsRes.state] at hrest ⊢
          omega
        | panicR db3 =>
          rw [hr] at hrest
          simp only [ItemsRes.state] at hrest ⊢
          omega
      | errR db2 m =>
        rw [hp] at hpairs
        simp only [ItemsRes.state] at hpairs ⊢
        omega
      | panicR db2 =>
        rw [hp] at hpairs
        simp only [ItemsRes.state] at hpairs ⊢
        omega
    | Retraction f =>
      simp only [Db.runItems, ItemsRes.state]
      exact le_refl _

theorem addPairs_mem_eav :
    ∀ (pairs : List (String × Value)) (db : Db) (e t : Nat) (a : Record),
      a ∈ db.eav → a ∈ (Db.addPairs db pairs e t).state.eav := by
  intro pairs
  induction pairs with
  | nil => intro db e t a ha; exact ha
  | cons p rest ih =>
    intro db e t a ha
    obtain ⟨k, v⟩ := p
    simp only [Db.addPairs]
    cases hm : db.idents.get_entity k with
    | none => exact ha
    | some attr =>
      dsimp only
      have hmem : a ∈ ((db.add ⟨e, attr, v, t⟩).1).eav :=
        (mem_add_eav db ⟨e, attr, v, t⟩ a).mpr (Or.inr ha)
      cases hadd : db.add ⟨e, attr, v, t⟩ with
      | mk db1 flag =>
        rw [hadd] at hmem
        cases flag
        · dsimp only [ItemsRes.state]
          exact ih db1 e t a hmem
        · dsimp only [ItemsRes.state]
          exact hmem

theorem runItems_mem_eav :
    ∀ (items : List TxItem) (db : Db) (t : Nat) (a : Record),
      a ∈ db.eav → a ∈ (Db.runItems db items t).state.eav := by
  intro items
  induction items with
  | nil => intro db t a ha; exact ha
  | cons item rest ih =>
    intro db t a ha
    cases item with
    | Addition f =>
      simp only [Db.runItems]
      cases hm : db.idents.get_entity f.attr with
      | none => exact ha
      | some attr =>
        dsimp only
        have hmem : a ∈ ((db.add ⟨f.entity, attr, f.value, t⟩).1).eav :=
          (mem_add_eav db ⟨f.entity, attr, f.value, t⟩ a).mpr (Or.inr ha)
        cases hadd : db.add ⟨f.entity, attr, f.value, t⟩ with
        | mk db1 flag =>
          rw [hadd] at hmem
          cases flag
          · dsimp only [ItemsRes.state]
            exact ih db1 t a hmem
          · dsimp only [ItemsRes.state]
            exact hmem
    | NewEntity pairs =>
      simp only [Db.runItems, Db.get_id]
      have hpairs := addPairs_mem_eav pairs
        { db with next_id := db.next_id + 1 } db.next_id t a ha
      cases hp : Db.addPairs { db with next_id := db.next_id + 1 }
          pairs db.next_id t with
      | okR db2 news2 =>
        rw [hp] at hpairs
        simp only [ItemsRes.state] at hpairs
        dsimp only
        have hrest := ih db2 t a hpairs
        cases hr : Db.runItems db2 rest t with
        | okR db3 news3 =>
          rw [hr] at hrest
          simp only [ItemsRes.state] at hrest ⊢
          exact hrest
        | errR db3 m =>
          rw [hr] at hrest
          simp only [ItemsRes.state] at hrest ⊢
          exact hrest
        | panicR db3 =>
          rw [hr] at hrest
          simp only [ItemsRes.state] at hrest ⊢
          exact hrest
      | errR db2 m =>
        rw [hp] at hpairs
        simp only [ItemsRes.state] at hpairs ⊢
        exact hpairs
      | panicR db2 =>
        rw [hp] at hpairs
        simp only [ItemsRes.state] at hpairs ⊢
        exact hpairs
    | Retraction f =>
      simp only [Db.runItems, ItemsRes.state]
      exact ha

theorem runItems_additions_mem :
    ∀ (items : List TxItem) (db : Db) (t : Nat) (db' : Db) (news : List Nat),
      Db.runItems db items t = ItemsRes.okR db' news →
      ∀ f, TxItem.Addition f ∈ items →
        ∃ a, (⟨f.entity, a, f.value, t⟩ : Record) ∈ db'.eav := by
  intro items
  induction items with
  | nil =>
    intro db t db' news h f hf
    exact absurd hf (List.not_mem_nil _)
  | cons item rest ih =>
    intro db t db' news h f hf
    cases item with
    | Addition f0 =>
      simp only [Db.runItems] at h
      cases hm : db.idents.get_entity f0.attr with
      | none => rw [hm] at h; simp at h
      | some attr =>
        rw [hm] at h
        dsimp only at h
        cases hadd : db.add ⟨f0.entity, attr, f0.value, t⟩ with
        | mk db1 flag =>
          rw [hadd] at h
          cases flag with
          | true => simp at h
          | false =>
            dsimp only at h
            rcases List.mem_cons.mp hf with heq | hrest
            · cases heq
              refine ⟨attr, ?_⟩
              have hmem : (⟨f.entity, attr, f.value, t⟩ : Record) ∈
                  ((db.add ⟨f.entity, attr, f.value, t⟩).1).eav :=
                (mem_add_eav db _ _).mpr (Or.inl rfl)
              rw [hadd] at hmem
              have := runItems_mem_eav rest db1 t _ hmem
              rw [h] at this
              exact this
            · exact ih db1 t db' news h f hrest
    | NewEntity pairs =>
      simp only [Db.runItems, Db.get_id] at h
      cases hp : Db.addPairs { db with next_id := db.next_id + 1 }
          pairs db.next_id t with
      | okR db2 news2 =>
        rw [hp] at h
        dsimp only at h
        cases hr : Db.runItems db2 rest t with
        | okR db3 news3 =>
          rw [hr] at h
          dsimp only at h
          cases h
          rcases List.mem_cons.mp hf with heq | hrest
          · cases heq
          · exact ih db2 t _ _ hr f hrest
        | errR db3 m => rw [hr] at h; simp at h
        | panicR db3 => rw [hr] at h; simp at h
      | errR db2 m => rw [hp] at h; simp at h
      | panicR db2 => rw [hp] at h; simp at h
    | Retraction f0 =>
      simp [Db.runItems] at h

/-- The store written by `transact`: unchanged unless the outcome is `ok`,
in which case it is the contents saved from the final in-memory state. -/
theorem transact_store_cases (db : Db) (store : DbContents) (tx : Tx)
    (now : Nat) :
    (∃ rep, (db.transact store tx now).2.2 = TxOutcome.ok rep ∧
        (db.transact store tx now).2.1 =
          (db.transact store tx now).1.save_contents) ∨
      ((∀ rep, (db.transact store tx now).2.2 ≠ TxOutcome.ok rep) ∧
        (db.transact store tx now).2.1 = store) := by
  simp only [Db.transact, Db.get_id]
  cases hm : ({ db with next_id := db.next_id + 1 } : Db).idents.get_entity
      "db:txInstant" with
  | none => right; simp
  | some attr =>
    dsimp only
    cases hadd : ({ db with next_id := db.next_id + 1 } : Db).add
        ⟨db.next_id, attr, .timestamp now, db.next_id⟩ with
    | mk db2 flag =>
      cases flag with
      | true => right; simp
      | false =>
        dsimp only
        cases hr : Db.runItems db2 tx.items db.next_id with
        | okR db3 news => left; exact ⟨⟨news⟩, rfl, rfl⟩
        | errR db3 m => right; simp
        | panicR db3 => right; simp

theorem transact_ok_mem (db : Db) (store : DbContents) (tx : Tx) (now : Nat)
    (rep : TxReport)
    (h : (db.transact store tx now).2.2 = TxOutcome.ok rep) :
    (∃ a, (⟨db.next_id, a, .timestamp now, db.next_id⟩ : Record) ∈
        (db.transact store tx now).1.eav) ∧
      (∀ f, TxItem.Addition f ∈ tx.items →
        ∃ a, (⟨f.entity, a, f.value, db.next_id⟩ : Record) ∈
          (db.transact store tx now).1.eav) := by
  simp only [Db.transact, Db.get_id] at h ⊢
  cases hm : ({ db with next_id := db.next_id + 1 } : Db).idents.get_entity
      "db:txInstant" with
  | none => rw [hm] at h; simp at h
  | some attr =>
    rw [hm] at h
    dsimp only at h ⊢
    cases hadd : ({ db with next_id := db.next_id + 1 } : Db).add
        ⟨db.next_id, attr, .timestamp now, db.next_id⟩ with
    | mk db2 flag =>
      rw [hadd] at h
      cases flag with
      | true => simp at h
      | false =>
        dsimp only at h ⊢
        cases hr : Db.runItems db2 tx.items db.next_id with
        | okR db3 news =>
          dsimp only
          constructor
          · refine ⟨attr, ?_⟩
            have hmem : (⟨db.next_id, attr, Value.timestamp now,
                db.next_id⟩ : Record) ∈
                (({ db with next_id := db.next_id + 1 } : Db).add
                  ⟨db.next_id, attr, .timestamp now, db.next_id⟩).1.eav :=
              (mem_add_eav _ _ _).mpr (Or.inl rfl)
            rw [hadd] at hmem
            have hfin := runItems_mem_eav tx.items db2 db.next_id _ hmem
            rw [hr] at hfin
            exact hfin
          · intro f hf
            exact runItems_additions_mem tx.items db2 db.next_id db3 news
              hr f hf
        | errR db3 m => rw [hr] at h; simp at h
        | panicR db3 => rw [hr] at h; simp at h

/-- C1: if any item of a transaction fails, `transact` returns an error
without calling `save_contents`, so the committed `DbContents` in the KV
store is unchanged and a `Database` freshly reloaded from the store is the
same as one loaded before the transaction (it shows none of the failed
transaction's records); conversely, after `transact` returns successfully
the committed `DbContents` is exactly the saved final state — so it carries
the new `next_id` and contains the emitted `db:txInstant` record and a record
for every `Addition` item, all stamped with the transaction entity
`db.next_id`. -/
theorem c1_transaction_atomicity (db : Db) (store : DbContents) (tx : Tx)
    (now now2 : Nat) :
    (∀ m, (db.transact store tx now).2.2 = TxOutcome.err m →
      (db.transact store tx now).2.1 = store ∧
      Db.new (db.transact store tx now).2.1 now2 = Db.new store now2) ∧
    (∀ rep, (db.transact store tx now).2.2 = TxOutcome.ok rep →
      (db.transact store tx now).2.1 =
        (db.transact store tx now).1.save_contents ∧
      (∃ a, (⟨db.next_id, a, .timestamp now, db.next_id⟩ : Record) ∈
        (db.transact store tx now).2.1.eav) ∧
      (∀ f, TxItem.Addition f ∈ tx.items →
        ∃ a, (⟨f.entity, a, f.value, db.next_id⟩ : Record) ∈
          (db.transact store tx now).2.1.eav)) := by
  constructor
  · intro m hm
    rcases transact_store_cases db store tx now with ⟨rep, hok, _⟩ | ⟨_, hst⟩
    · rw [hok] at hm; cases hm
    · exact ⟨hst, by rw [hst]⟩
  · intro rep hok
    rcases transact_store_cases db store tx now with ⟨rep', hok', hst⟩ |
      ⟨hne, _⟩
    · refine ⟨hst, ?_⟩
      have hmem := transact_ok_mem db store tx now rep hok
      have heav : (db.transact store tx now).2.1.eav =
          (db.transact store tx now).1.eav := by
        rw [hst]; rfl
      rw [heav]
      exact hmem
    · exact absurd hok (hne rep)

/-- C1 witness: on the bootstrap database, a transaction whose single item
names an unknown attribute fails, and the committed store is untouched. -/
theorem c1_transaction_atomicity_witness :
    ((Db.new DbContents.fresh 0).1.transact DbContents.fresh
      ⟨[TxItem.Addition ⟨0, "nope", .str "x"⟩]⟩ 7).2.1 = DbContents.fresh :=
  ((c1_transaction_atomicity (Db.new DbContents.fresh 0).1 DbContents.fresh
    ⟨[TxItem.Addition ⟨0, "nope", .str "x"⟩]⟩ 7 3).1
    "invalid attribute" (by decide)).1

/-- C2: the Rust source's internal `add` does not return a `TypeMismatch`
error when a record asserts `db:ident` with a non-ident value: it hits the
`unimplemented!()` arm at `src/db.rs:74` and panics (the model's `true`
flag), after the index insertions have already happened.  The record below
has the `db:ident` attribute entity (1) and a string value. -/
theorem c2_add_nonident_value_panics :
    ((Db.new DbContents.fresh 0).1.idents.get_entity "db:ident" = some 1) ∧
    ((Db.new DbContents.fresh 0).1.add ⟨5, 1, .str "x", 0⟩).2 = true := by
  exact ⟨rfl, rfl⟩

/-- C4: on a fresh store (`next_id == 0`), `Db::new` seeds `db:ident ↦ 1`,
bootstraps, and ends with `db:txInstant ↦ 2` and exactly the three bootstrap
records in each index (in each index's own order); no bootstrap `add`
panics. -/
theorem c4_bootstrap (now : Nat) :
    (Db.new DbContents.fresh now).1.idents.get_entity "db:ident" = some 1 ∧
    (Db.new DbContents.fresh now).1.idents.get_entity "db:txInstant" =
      some 2 ∧
    (Db.new DbContents.fresh now).1.eav =
      [⟨0, 2, .timestamp now, 0⟩, ⟨1, 1, .ident "db:ident", 0⟩,
       ⟨2, 1, .ident "db:txInstant", 0⟩] ∧
    (Db.new DbContents.fresh now).1.ave =
      [⟨1, 1, .ident "db:ident", 0⟩, ⟨2, 1, .ident "db:txInstant", 0⟩,
       ⟨0, 2, .timestamp now, 0⟩] ∧
    (Db.new DbContents.fresh now).1.aev =
      [⟨1, 1, .ident "db:ident", 0⟩, ⟨2, 1, .ident "db:txInstant", 0⟩,
       ⟨0, 2, .timestamp now, 0⟩] ∧
    (Db.new DbContents.fresh now).2 = false :=
  ⟨rfl, rfl, rfl, rfl, rfl, rfl⟩

/-- `Db::new` at the store level: construction calls `get_contents` (and
node reads) but never `set_contents`, so it returns the committed root it
was given, unchanged. -/
def Db.newOnStore (store : DbContents) (now : Nat) :
    (Db × Bool) × DbContents :=
  (Db.new store now, store)

/-- C10: constructing a `Database` — including the bootstrap inserts on a
fresh store — leaves the committed `DbContents` root blob unchanged; the
committed root changes only through a successful `transact`'s
`save_contents` (on error or panic the store is untouched). -/
theorem c10_new_does_not_commit (store : DbContents) (now : Nat) (db : Db)
    (tx : Tx) (now2 : Nat) :
    (Db.newOnStore store now).2 = store ∧
    ((∀ rep, (db.transact store tx now2).2.2 ≠ TxOutcome.ok rep) →
      (db.transact store tx now2).2.1 = store) ∧
    (∀ rep, (db.transact store tx now2).2.2 = TxOutcome.ok rep →
      (db.transact store tx now2).2.1 =
        (db.transact store tx now2).1.save_contents) := by
  refine ⟨rfl, ?_, ?_⟩
  · intro hne
    rcases transact_store_cases db store tx now2 with ⟨rep, hok, _⟩ | ⟨_, hst⟩
    · exact absurd hok (hne rep)
    · exact hst
  · intro rep hok
    rcases transact_store_cases db store tx now2 with ⟨rep', _, hst⟩ |
      ⟨hne, _⟩
    · exact hst
    · exact absurd hok (hne rep)

/-- C10 witness: the bootstrap construction on a fresh store, and a failing
transaction, both leave the committed root untouched. -/
theorem c10_new_does_not_commit_witness :
    (Db.newOnStore DbContents.fresh 5).2 = DbContents.fresh ∧
    ((Db.new DbContents.fresh 0).1.transact DbContents.fresh
      ⟨[TxItem.Retraction ⟨0, "name", .str "x"⟩]⟩ 7).2.1 = DbContents.fresh :=
  ⟨(c10_new_does_not_commit DbContents.fresh 5 (Db.new DbContents.fresh 0).1
      ⟨[]⟩ 0).1,
    (c10_new_does_not_commit DbContents.fresh 5 (Db.new DbContents.fresh 0).1
      ⟨[TxItem.Retraction ⟨0, "name", .str "x"⟩]⟩ 7).2.1 (by
        intro rep h
        rw [show ((Db.new DbContents.fresh 0).1.transact DbContents.fresh
          ⟨[TxItem.Retraction ⟨0, "name", .str "x"⟩]⟩ 7).2.2 =
          TxOutcome.panicked from rfl] at h
        cases h)⟩

/-! ### Index agreement (C6) -/

/-- A sequence of internal `add` calls.  The panic flag of each call is
dropped: by the time the Rust `add` can panic, the three index insertions
have already happened, so the flag does not affect the index state. -/
def Db.addAll (db : Db) (l : List Record) : Db :=
  l.foldl (fun d r => (d.add r).1) db

/-- Every record present in one index is present in all three. -/
def IndexesAgree (db : Db) : Prop :=
  (∀ r ∈ db.eav, r ∈ db.ave ∧ r ∈ db.aev) ∧
    (∀ r ∈ db.ave, r ∈ db.eav) ∧ (∀ r ∈ db.aev, r ∈ db.eav)

/-- Each index list is strictly sorted under its own comparator. -/
def IndexesSorted (db : Db) : Prop :=
  db.eav.Pairwise (fun a b => Record.ltbE a b = true) ∧
    db.ave.Pairwise (fun a b => Record.ltbAv a b = true) ∧
    db.aev.Pairwise (fun a b => Record.ltbAe a b = true)

theorem sortedE_iff (l : List Record) :
    l.Pairwise (fun a b => Record.ltbE a b = true) ↔
      l.Pairwise (fun a b => keyE a < keyE b) :=
  ⟨fun h => h.imp (fun hab => (ltbE_iff _ _).mp hab),
   fun h => h.imp (fun hab => (ltbE_iff _ _).mpr hab)⟩

theorem sortedAe_iff (l : List Record) :
    l.Pairwise (fun a b => Record.ltbAe a b = true) ↔
      l.Pairwise (fun a b => keyAe a < keyAe b) :=
  ⟨fun h => h.imp (fun hab => (ltbAe_iff _ _).mp hab),
   fun h => h.imp (fun hab => (ltbAe_iff _ _).mpr hab)⟩

theorem sortedAv_iff (l : List Record) :
    l.Pairwise (fun a b => Record.ltbAv a b = true) ↔
      l.Pairwise (fun a b => keyAv a < keyAv b) :=
  ⟨fun h => h.imp (fun hab => (ltbAv_iff _ _).mp hab),
   fun h => h.imp (fun hab => (ltbAv_iff _ _).mpr hab)⟩

theorem add_preserves_agree (db : Db) (r : Record) (h : IndexesAgree db) :
    IndexesAgree (db.add r).1 := by
  obtain ⟨h1, h2, h3⟩ := h
  refine ⟨?_, ?_, ?_⟩ <;> intro a ha
  · rw [mem_add_eav] at ha
    rw [mem_add_ave, mem_add_aev]
    rcases ha with rfl | ha
    · exact ⟨Or.inl rfl, Or.inl rfl⟩
    · exact ⟨Or.inr (h1 a ha).1, Or.inr (h1 a ha).2⟩
  · rw [mem_add_ave] at ha
    rw [mem_add_eav]
    rcases ha with rfl | ha
    · exact Or.inl rfl
    · exact Or.inr (h2 a ha)
  · rw [mem_add_aev] at ha
    rw [mem_add_eav]
    rcases ha with rfl | ha
    · exact Or.inl rfl
    · exact Or.inr (h3 a ha)

theorem add_preserves_sorted (db : Db) (r : Record) (h : IndexesSorted db) :
    IndexesSorted (db.add r).1 := by
  obtain ⟨h1, h2, h3⟩ := h
  refine ⟨?_, ?_, ?_⟩
  · rw [add_eav, sortedE_iff]
    exact pairwise_insertSorted keyE Record.ltbE ltbE_iff keyE_injective r
      db.eav ((sortedE_iff _).mp h1)
  · rw [add_ave, sortedAv_iff]
    exact pairwise_insertSorted keyAv Record.ltbAv ltbAv_iff keyAv_injective r
      db.ave ((sortedAv_iff _).mp h2)
  · rw [add_aev, sortedAe_iff]
    exact pairwise_insertSorted keyAe Record.ltbAe ltbAe_iff keyAe_injective r
      db.aev ((sortedAe_iff _).mp h3)

theorem perm_of_agree_sorted (db : Db) (hs : IndexesSorted db)
    (ha : IndexesAgree db) :
    db.eav.Perm db.ave ∧ db.eav.Perm db.aev := by
  obtain ⟨hE, hAv, hAe⟩ := hs
  obtain ⟨h1, h2, h3⟩ := ha
  have ndE : db.eav.Nodup :=
    nodup_of_pairwise_lt keyE _ ((sortedE_iff _).mp hE)
  have ndAv : db.ave.Nodup :=
    nodup_of_pairwise_lt keyAv _ ((sortedAv_iff _).mp hAv)
  have ndAe : db.aev.Nodup :=
    nodup_of_pairwise_lt keyAe _ ((sortedAe_iff _).mp hAe)
  constructor
  · refine List.perm_of_nodup_nodup_toFinset_eq ndE ndAv ?_
    ext a
    simp only [List.mem_toFinset]
    exact ⟨fun h => (h1 a h).1, fun h => h2 a h⟩
  · refine List.perm_of_nodup_nodup_toFinset_eq ndE ndAe ?_
    ext a
    simp only [List.mem_toFinset]
    exact ⟨fun h => (h1 a h).2, fun h => h3 a h⟩

theorem addAll_preserves (l : List Record) :
    ∀ db : Db, IndexesSorted db → IndexesAgree db →
      IndexesSorted (db.addAll l) ∧ IndexesAgree (db.addAll l) := by
  induction l with
  | nil => intro db hs ha; exact ⟨hs, ha⟩
  | cons r rest ih =>
    intro db hs ha
    have h1 := add_preserves_sorted db r hs
    have h2 := add_preserves_agree db r ha
    have := ih (db.add r).1 h1 h2
    simpa [Db.addAll] using this

/-- C6: starting from a state whose three indexes are sorted and agree (as
any reachable state is), after any sequence of internal `add` calls every
record present in one index is present in all three, and the full scans of
EAVT, AEVT and AVET yield the same multiset of records (the lists are
permutations of one another). -/
theorem c6_index_agreement (db : Db) (l : List Record)
    (hs : IndexesSorted db) (ha : IndexesAgree db) :
    IndexesAgree (db.addAll l) ∧
      (db.addAll l).eav.Perm (db.addAll l).ave ∧
      (db.addAll l).eav.Perm (db.addAll l).aev := by
  obtain ⟨hs', ha'⟩ := addAll_preserves l db hs ha
  exact ⟨ha', (perm_of_agree_sorted _ hs' ha').1,
    (perm_of_agree_sorted _ hs' ha').2⟩

/-- C6 witness: the bootstrap database extended with two further records. -/
theorem c6_index_agreement_witness :
    IndexesAgree ((Db.new DbContents.fresh 0).1.addAll
      [⟨9, 2, .entity 9, 1⟩, ⟨4, 1, .ident "name", 3⟩]) ∧
    ((Db.new DbContents.fresh 0).1.addAll
      [⟨9, 2, .entity 9, 1⟩, ⟨4, 1, .ident "name", 3⟩]).eav.Perm
      ((Db.new DbContents.fresh 0).1.addAll
        [⟨9, 2, .entity 9, 1⟩, ⟨4, 1, .ident "name", 3⟩]).ave ∧
    ((Db.new DbContents.fresh 0).1.addAll
      [⟨9, 2, .entity 9, 1⟩, ⟨4, 1, .ident "name", 3⟩]).eav.Perm
      ((Db.new DbContents.fresh 0).1.addAll
        [⟨9, 2, .entity 9, 1⟩, ⟨4, 1, .ident "name", 3⟩]).aev :=
  c6_index_agreement (Db.new DbContents.fresh 0).1
    [⟨9, 2, .entity 9, 1⟩, ⟨4, 1, .ident "name", 3⟩]
    (by constructor
        · decide
        · exact ⟨by decide, by decide⟩)
    (by refine ⟨?_, ?_, ?_⟩ <;> decide)

/-! ### Monotone ids (C9) -/

/-- The entity-id fields of a record — entity, attribute and tx — are all
below `n`.  (The value payload is deliberately not included; see the C9
counterexample.) -/
abbrev RecordIdsBelow (r : Record) (n : Nat) : Prop :=
  r.entity < n ∧ r.attr < n ∧ r.tx < n

/-- Every id the state references — the id fields of every record in the
EAVT index, and every entity in the ident map — is below `next_id`. -/
def DbIdsBelow (db : Db) : Prop :=
  (∀ r ∈ db.eav, RecordIdsBelow r db.next_id) ∧
    (∀ p ∈ db.idents.entries, p.2 < db.next_id)

theorem get_entity_lt (m : IdentMap) (n : Nat)
    (hm : ∀ p ∈ m.entries, p.2 < n) (k : String) (e : Nat)
    (h : m.get_entity k = some e) : e < n := by
  unfold IdentMap.get_entity at h
  cases hf : m.entries.find? (fun p => p.1 == k) with
  | none => rw [hf] at h; cases h
  | some p =>
    rw [hf] at h
    injection h with h
    exact h ▸ hm p (List.mem_of_find?_eq_some hf)

theorem below_widen (db : Db) (m : Nat) (h : DbIdsBelow db)
    (hm : db.next_id ≤ m) : DbIdsBelow { db with next_id := m } := by
  obtain ⟨h1, h2⟩ := h
  exact ⟨fun r hr => ⟨lt_of_lt_of_le (h1 r hr).1 hm,
      lt_of_lt_of_le (h1 r hr).2.1 hm, lt_of_lt_of_le (h1 r hr).2.2 hm⟩,
    fun p hp => lt_of_lt_of_le (h2 p hp) hm⟩

theorem add_preserves_below (db : Db) (r : Record) (hdb : DbIdsBelow db)
    (ha : r.attr < db.next_id) (ht : r.tx < db.next_id) :
    DbIdsBelow (db.add r).1 := by
  obtain ⟨h1, h2⟩ := hdb
  have hmono := add_next_id_mono db r
  have hent := add_entity_lt db r
  constructor
  · intro a haMem
    rw [mem_add_eav] at haMem
    rcases haMem with rfl | hold
    · exact ⟨hent, lt_of_lt_of_le ha hmono, lt_of_lt_of_le ht hmono⟩
    · obtain ⟨e1, e2, e3⟩ := h1 a hold
      exact ⟨lt_of_lt_of_le e1 hmono, lt_of_lt_of_le e2 hmono,
        lt_of_lt_of_le e3 hmono⟩
  · intro p hp
    rcases add_idents_cases db r with heq | ⟨s, _, heq⟩
    · rw [heq] at hp
      exact lt_of_lt_of_le (h2 p hp) hmono
    · rw [heq] at hp
      simp only [IdentMap.add] at hp
      rcases List.mem_cons.mp hp with rfl | hold
      · exact hent
      · exact lt_of_lt_of_le (h2 p hold) hmono

theorem addPairs_preserves_below :
    ∀ (pairs : List (String × Value)) (db : Db) (e t : Nat),
      DbIdsBelow db → t < db.next_id →
      DbIdsBelow (Db.addPairs db pairs e t).state := by
  intro pairs
  induction pairs with
  | nil => intro db e t hdb ht; exact hdb
  | cons p rest ih =>
    intro db e t hdb ht
    obtain ⟨k, v⟩ := p
    simp only [Db.addPairs]
    cases hm : db.idents.get_entity k with
    | none => exact hdb
    | some attr =>
      dsimp only
      have hattr : attr < db.next_id := get_entity_lt db.idents _ hdb.2 k attr hm
      have hnext := add_preserves_below db ⟨e, attr, v, t⟩ hdb hattr ht
      have hmono := add_next_id_mono db ⟨e, attr, v, t⟩
      cases hadd : db.add ⟨e, attr, v, t⟩ with
      | mk db1 flag =>
        rw [hadd] at hnext hmono
        cases flag
        · dsimp only [ItemsRes.state]
          exact ih db1 e t hnext (lt_of_lt_of_le ht hmono)
        · dsimp only [ItemsRes.state]
          exact hnext

theorem runItems_preserves_below :
    ∀ (items : List TxItem) (db : Db) (t : Nat),
      DbIdsBelow db → t < db.next_id →
      DbIdsBelow (Db.runItems db items t).state := by
  intro items
  induction items with
  | nil => intro db t hdb ht; exact hdb
  | cons item rest ih =>
    intro db t hdb ht
    cases item with
    | Addition f =>
      simp only [Db.runItems]
      cases hm : db.idents.get_entity f.attr with
      | none => exact hdb
      | some attr =>
        dsimp only
        have hattr : attr < db.next_id :=
          get_entity_lt db.idents _ hdb.2 f.attr attr hm
        have hnext := add_preserves_below db ⟨f.entity, attr, f.value, t⟩
          hdb hattr ht
        have hmono := add_next_id_mono db ⟨f.entity, attr, f.value, t⟩
        cases hadd : db.add ⟨f.entity, attr, f.value, t⟩ with
        | mk db1 flag =>
          rw [hadd] at hnext hmono
          cases flag
          · dsimp only [ItemsRes.state]
            exact ih db1 t hnext (lt_of_lt_of_le ht hmono)
          · dsimp only [ItemsRes.state]
            exact hnext
    | NewEntity pairs =>
      simp only [Db.runItems, Db.get_id]
      have hdb1 : DbIdsBelow { db with next_id := db.next_id + 1 } :=
        below_widen db _ hdb (Nat.le_succ _)
      have ht1 : t < db.next_id + 1 := Nat.lt_succ_of_lt ht
      have hpairs := addPairs_preserves_below pairs
        { db with next_id := db.next_id + 1 } db.next_id t hdb1 ht1
      have hpmono := addPairs_next_id_mono pairs
        { db with next_id := db.next_id + 1 } db.next_id t
      cases hp : Db.addPairs { db with next_id := db.next_id + 1 }
          pairs db.next_id t with
      | okR db2 news2 =>
        rw [hp] at hpairs hpmono
        simp only [ItemsRes.state] at hpairs hpmono
        dsimp only
        have ht2 : t < db2.next_id := lt_of_lt_of_le ht1 hpmono
        have hrest := ih db2 t hpairs ht2
        cases hr : Db.runItems db2 rest t with
        | okR db3 news3 =>
          rw [hr] at hrest
          simp only [ItemsRes.state] at hrest ⊢
          exact hrest
        | errR db3 m =>
          rw [hr] at hrest
          simp only [ItemsRes.state] at hrest ⊢
          exact hrest
        | panicR db3 =>
          rw [hr] at hrest
          simp only [ItemsRes.state] at hrest ⊢
          exact hrest
      | errR db2 m =>
        rw [hp] at hpairs
        simp only [ItemsRes.state] at hpairs ⊢
        exact hpairs
      | panicR db2 =>
        rw [hp] at hpairs
        simp only [ItemsRes.state] at hpairs ⊢
        exact hpairs
    | Retraction f =>
      simp only [Db.runItems, ItemsRes.state]
      exact hdb

theorem runItems_news_below :
    ∀ (items : List TxItem) (db : Db) (t : Nat) (db' : Db) (news : List Nat),
      Db.runItems db items t = ItemsRes.okR db' news →
      ∀ e ∈ news, e < db'.next_id := by
  intro items
  induction items with
  | nil =>
    intro db t db' news h e he
    simp only [Db.runItems] at h
    cases h
    exact absurd he (List.not_mem_nil _)
  | cons item rest ih =>
    intro db t db' news h e he
    cases item with
    | Addition f =>
      simp only [Db.runItems] at h
      cases hm : db.idents.get_entity f.attr with
      | none => rw [hm] at h; simp at h
      | some attr =>
        rw [hm] at h
        dsimp only at h
        cases hadd : db.add ⟨f.entity, attr, f.value, t⟩ with
        | mk db1 flag =>
          rw [hadd] at h
          cases flag with
          | true => simp at h
          | false =>
            dsimp only at h
            exact ih db1 t db' news h e he
    | NewEntity pairs =>
      simp only [Db.runItems, Db.get_id] at h
      cases hp : Db.addPairs { db with next_id := db.next_id + 1 }
          pairs db.next_id t with
      | okR db2 news2 =>
        rw [hp] at h
        dsimp only at h
        have hpmono := addPairs_next_id_mono pairs
          { db with next_id := db.next_id + 1 } db.next_id t
        rw [hp] at hpmono
        simp only [ItemsRes.state] at hpmono
        cases hr : Db.runItems db2 rest t with
        | okR db3 news3 =>
          rw [hr] at h
          dsimp only at h
          cases h
          have hrmono := runItems_next_id_mono rest db2 t
          rw [hr] at hrmono
          simp only [ItemsRes.state] at hrmono
          rcases List.mem_cons.mp he with rfl | htail
          · omega
          · exact ih db2 t _ _ hr e htail
        | errR db3 m => rw [hr] at h; simp at h
        | panicR db3 => rw [hr] at h; simp at h
      | errR db2 m => rw [hp] at h; simp at h
      | panicR db2 => rw [hp] at h; simp at h
    | Retraction f => simp [Db.runItems] at h

/-- C9 (amended): `next_id` never decreases across `get_id`, `add` and
`transact`; the transaction entity (the pre-call `next_id`) is strictly
below the post-transaction `next_id`; and when the state's record id fields
(entity, attribute, tx) and ident-map entities are below `next_id` — as in
any reachable state — they remain so after `transact`, and every entity
allocated for a `NewEntity` item is strictly below the post-transaction
`next_id`.  The original claim's stronger reading, that *every* entity id
appearing in a stored record is below `next_id`, fails for entity ids inside
value payloads: see the counterexample. -/
theorem c9_monotone_ids (db : Db) (r : Record) (store : DbContents)
    (tx : Tx) (now : Nat) :
    db.next_id ≤ (db.get_id).2.next_id ∧
    db.next_id ≤ (db.add r).1.next_id ∧
    db.next_id < (db.transact store tx now).1.next_id ∧
    (DbIdsBelow db →
      DbIdsBelow (db.transact store tx now).1 ∧
      (∀ rep, (db.transact store tx now).2.2 = TxOutcome.ok rep →
        ∀ e ∈ rep.new_entities, e < (db.transact store tx now).1.next_id)) := by
  refine ⟨Nat.le_succ _, add_next_id_mono db r, ?_⟩
  simp only [Db.transact, Db.get_id]
  cases hm : ({ db with next_id := db.next_id + 1 } : Db).idents.get_entity
      "db:txInstant" with
  | none =>
    dsimp only
    refine ⟨Nat.lt_succ_self _, fun hdb =>
      ⟨below_widen db _ hdb (Nat.le_succ _), ?_⟩⟩
    intro rep hrep
    simp at hrep
  | some attr =>
    dsimp only
    have hmono2 := add_next_id_mono { db with next_id := db.next_id + 1 }
      ⟨db.next_id, attr, .timestamp now, db.next_id⟩
    cases hadd : ({ db with next_id := db.next_id + 1 } : Db).add
        ⟨db.next_id, attr, .timestamp now, db.next_id⟩ with
    | mk db2 flag =>
      rw [hadd] at hmono2
      simp only at hmono2
      have hdb2 : DbIdsBelow db → DbIdsBelow db2 := by
        intro hdb
        have hdb1 := below_widen db _ hdb (Nat.le_succ _)
        have hattr : attr < db.next_id + 1 :=
          get_entity_lt _ _ hdb1.2 _ _ hm
        have := add_preserves_below { db with next_id := db.next_id + 1 }
          ⟨db.next_id, attr, .timestamp now, db.next_id⟩ hdb1 hattr
          (Nat.lt_succ_self _)
        rw [hadd] at this
        exact this
      cases flag with
      | true =>
        dsimp only
        refine ⟨lt_of_lt_of_le (Nat.lt_succ_self _) hmono2, fun hdb =>
          ⟨hdb2 hdb, ?_⟩⟩
        intro rep hrep
        simp at hrep
      | false =>
        dsimp only
        have hrmono := runItems_next_id_mono tx.items db2 db.next_id
        cases hr : Db.runItems db2 tx.items db.next_id with
        | okR db3 news =>
          rw [hr] at hrmono
          simp only [ItemsRes.state] at hrmono
          dsimp only
          refine ⟨by omega, fun hdb => ⟨?_, ?_⟩⟩
          · have := runItems_preserves_below tx.items db2 db.next_id
              (hdb2 hdb) (by omega)
            rw [hr] at this
            exact this
          · intro rep hrep
            injection hrep with hrep
            subst hrep
            exact runItems_news_below tx.items db2 db.next_id db3 news hr
        | errR db3 m =>
          rw [hr] at hrmono
          simp only [ItemsRes.state] at hrmono
          dsimp only
          refine ⟨by omega, fun hdb => ⟨?_, ?_⟩⟩
          · have := runItems_preserves_below tx.items db2 db.next_id
              (hdb2 hdb) (by omega)
            rw [hr] at this
            exact this
          · intro rep hrep
            simp at hrep
        | panicR db3 =>
          rw [hr] at hrmono
          simp only [ItemsRes.state] at hrmono
          dsimp only
          refine ⟨by omega, fun hdb => ⟨?_, ?_⟩⟩
          · have := runItems_preserves_below tx.items db2 db.next_id
              (hdb2 hdb) (by omega)
            rw [hr] at this
            exact this
          · intro rep hrep
            simp at hrep

/-- C9 witness: the bootstrap database satisfies the id-bound invariant, and
a successful `NewEntity` transaction preserves it with the allocated entity
below the new `next_id`. -/
theorem c9_monotone_ids_witness :
    DbIdsBelow ((Db.new DbContents.fresh 0).1.transact DbContents.fresh
      ⟨[TxItem.NewEntity [("db:ident", .ident "name")]]⟩ 7).1 ∧
    ∀ e ∈ (TxReport.mk [4]).new_entities,
      e < ((Db.new DbContents.fresh 0).1.transact DbContents.fresh
        ⟨[TxItem.NewEntity [("db:ident", .ident "name")]]⟩ 7).1.next_id :=
  ⟨((c9_monotone_ids (Db.new DbContents.fresh 0).1 ⟨0, 0, .str "", 0⟩
      DbContents.fresh ⟨[TxItem.NewEntity [("db:ident", .ident "name")]]⟩
      7).2.2.2 ⟨by decide, by decide⟩).1,
    ((c9_monotone_ids (Db.new DbContents.fresh 0).1 ⟨0, 0, .str "", 0⟩
      DbContents.fresh ⟨[TxItem.NewEntity [("db:ident", .ident "name")]]⟩
      7).2.2.2 ⟨by decide, by decide⟩).2 ⟨[4]⟩ (by decide)⟩

/-- C9 counterexample: a successful transaction stores a record whose value
payload holds the entity id 999 while the post-transaction `next_id` is 4,
so "every entity id appearing in any stored record is strictly less than
the post-transaction `next_id`" fails when value payloads count as
appearing. -/
theorem c9_counterexample :
    ((Db.new DbContents.fresh 0).1.transact DbContents.fresh
        ⟨[TxItem.Addition ⟨0, "db:txInstant", .entity 999⟩]⟩ 7).2.2 =
      TxOutcome.ok ⟨[]⟩ ∧
    (⟨0, 2, .entity 999, 3⟩ : Record) ∈
      ((Db.new DbContents.fresh 0).1.transact DbContents.fresh
        ⟨[TxItem.Addition ⟨0, "db:txInstant", .entity 999⟩]⟩ 7).1.eav ∧
    ((Db.new DbContents.fresh 0).1.transact DbContents.fresh
        ⟨[TxItem.Addition ⟨0, "db:txInstant", .entity 999⟩]⟩ 7).1.next_id =
      4 ∧
    ¬(999 < 4) := by
  refine ⟨rfl, by decide, rfl, by decide⟩

/-! ### The unifier (C3) -/

theorem find?_filter_ne (v w : Var) (hne : w ≠ v) :
    ∀ b : Binding,
      (b.filter (fun p => !(p.1 == v))).find? (fun p => p.1 == w) =
        b.find? (fun p => p.1 == w) := by
  intro b
  induction b with
  | nil => rfl
  | cons p t ih =>
    obtain ⟨k, u⟩ := p
    by_cases hkv : k = v
    · subst hkv
      rw [List.filter_cons_of_neg (by simp)]
      rw [List.find?_cons_of_neg _ (by simp [Ne.symm hne])]
      exact ih
    · rw [List.filter_cons_of_pos (by simp [hkv])]
      by_cases hkw : k = w
      · subst hkw
        rw [List.find?_cons_of_pos _ (by simp),
          List.find?_cons_of_pos _ (by simp)]
      · rw [List.find?_cons_of_neg _ (by simp [hkw]),
          List.find?_cons_of_neg _ (by simp [hkw])]
        exact ih

theorem blookup_binsert (v : Var) (val : Value) (b : Binding) (w : Var) :
    blookup (binsert v val b) w =
      if w = v then some val else blookup b w := by
  by_cases h : w = v
  · subst h
    rw [if_pos rfl]
    unfold blookup binsert
    rw [List.find?_cons_of_pos _ (by simp)]
    rfl
  · rw [if_neg h]
    unfold blookup binsert
    rw [List.find?_cons_of_neg _ (by
      simp only [beq_iff_eq]
      exact Ne.symm h)]
    rw [find?_filter_ne v w h b]

theorem stepEntity_isSome (env : Binding) (t : Term Nat) (fv : Nat)
    (acc : Binding) :
    (stepEntity env t fv acc).isSome = true ↔
      (∀ e, t = Term.Bound e → e = fv) ∧
      (∀ v val, t = Term.Unbound v → blookup env v = some val →
        val = Value.entity fv) := by
  cases t with
  | Bound e => by_cases h : e = fv <;> simp [stepEntity, h]
  | Unbound v =>
    cases hl : blookup env v with
    | none =>
      simp only [stepEntity, hl, Option.isSome_some, true_iff]
      refine ⟨by simp, ?_⟩
      intro v1 val2 heq hlook
      injection heq with heq
      rw [← heq, hl] at hlook
      cases hlook
    | some val =>
      simp only [stepEntity, hl]
      by_cases h : val = Value.entity fv
      · rw [if_pos h]
        simp only [Option.isSome_some, true_iff]
        refine ⟨by simp, ?_⟩
        intro v1 val2 heq hlook
        injection heq with heq
        rw [← heq, hl] at hlook
        injection hlook with hlook
        rw [← hlook]
        exact h
      · rw [if_neg h]
        simp only [Option.isSome_none, Bool.false_eq_true, false_iff]
        intro hc
        exact h (hc.2 v val rfl hl)

theorem stepAttr_isSome (env : Binding) (idents : IdentMap) (t : Term String)
    (fv : Nat) (acc : Binding) :
    (stepAttr env idents t fv acc).isSome = true ↔
      (∀ a, t = Term.Bound a → idents.get_entity a = some fv) ∧
      (∀ v val, t = Term.Unbound v → blookup env v = some val →
        val = Value.entity fv) := by
  cases t with
  | Bound a =>
    cases hg : idents.get_entity a with
    | none => simp [stepAttr, hg]
    | some e => by_cases h : e = fv <;> simp [stepAttr, hg, h]
  | Unbound v =>
    cases hl : blookup env v with
    | none =>
      simp only [stepAttr, hl, Option.isSome_some, true_iff]
      refine ⟨by simp, ?_⟩
      intro v1 val2 heq hlook
      injection heq with heq
      rw [← heq, hl] at hlook
      cases hlook
    | some val =>
      simp only [stepAttr, hl]
      by_cases h : val = Value.entity fv
      · rw [if_pos h]
        simp only [Option.isSome_some, true_iff]
        refine ⟨by simp, ?_⟩
        intro v1 val2 heq hlook
        injection heq with heq
        rw [← heq, hl] at hlook
        injection hlook with hlook
        rw [← hlook]
        exact h
      · rw [if_neg h]
        simp only [Option.isSome_none, Bool.false_eq_true, false_iff]
        intro hc
        exact h (hc.2 v val rfl hl)

theorem stepValue_isSome (env : Binding) (t : Term Value) (fv : Value)
    (acc : Binding) :
    (stepValue env t fv acc).isSome = true ↔
      (∀ x, t = Term.Bound x → x = fv) ∧
      (∀ v val, t = Term.Unbound v → blookup env v = some val → val = fv) := by
  cases t with
  | Bound x => by_cases h : x = fv <;> simp [stepValue, h]
  | Unbound v =>
    cases hl : blookup env v with
    | none =>
      simp only [stepValue, hl, Option.isSome_some, true_iff]
      refine ⟨by simp, ?_⟩
      intro v1 val2 heq hlook
      injection heq with heq
      rw [← heq, hl] at hlook
      cases hlook
    | some val =>
      simp only [stepValue, hl]
      by_cases h : val = fv
      · rw [if_pos h]
        simp only [Option.isSome_some, true_iff]
        refine ⟨by simp, ?_⟩
        intro v1 val2 heq hlook
        injection heq with heq
        rw [← heq, hl] at hlook
        injection hlook with hlook
        rw [← hlook]
        exact h
      · rw [if_neg h]
        simp only [Option.isSome_none, Bool.false_eq_true, false_iff]
        intro hc
        exact h (hc.2 v val rfl hl)

theorem stepEntity_some_lookup (env : Binding) (t : Term Nat) (fv : Nat)
    (acc d : Binding) (h : stepEntity env t fv acc = some d) (w : Var) :
    blookup d w =
      if t = Term.Unbound w ∧ blookup env w = none
      then some (Value.entity fv) else blookup acc w := by
  cases t with
  | Bound e =>
    simp only [stepEntity] at h
    by_cases he : e = fv
    · rw [if_pos he] at h
      injection h with h
      subst h
      rw [if_neg (by simp)]
    · rw [if_neg he] at h; cases h
  | Unbound v =>
    cases hl : blookup env v with
    | none =>
      simp only [stepEntity] at h
      rw [hl] at h
      dsimp only at h
      injection h with h
      subst h
      rw [blookup_binsert]
      by_cases hw : w = v
      · subst hw
        rw [if_pos rfl, if_pos ⟨rfl, hl⟩]
      · rw [if_neg hw, if_neg (by
          rintro ⟨hv, _⟩
          injection hv with hv
          exact hw hv.symm)]
    | some val =>
      simp only [stepEntity] at h
      rw [hl] at h
      dsimp only at h
      by_cases he : val = Value.entity fv
      · rw [if_pos he] at h
        injection h with h
        subst h
        rw [if_neg (by
          rintro ⟨hv, hn⟩
          injection hv with hv
          rw [hv.symm] at hn
          rw [hn] at hl
          cases hl)]
      · rw [if_neg he] at h; cases h

theorem stepAttr_some_lookup (env : Binding) (idents : IdentMap)
    (t : Term String) (fv : Nat) (acc d : Binding)
    (h : stepAttr env idents t fv acc = some d) (w : Var) :
    blookup d w =
      if t = Term.Unbound w ∧ blookup env w = none
      then some (Value.entity fv) else blookup acc w := by
  cases t with
  | Bound a =>
    simp only [stepAttr] at h
    cases hg : idents.get_entity a with
    | none => rw [hg] at h; dsimp only at h; cases h
    | some e =>
      rw [hg] at h
      dsimp only at h
      by_cases he : e = fv
      · rw [if_pos he] at h
        injection h with h
        subst h
        rw [if_neg (by simp)]
      · rw [if_neg he] at h; cases h
  | Unbound v =>
    cases hl : blookup env v with
    | none =>
      simp only [stepAttr] at h
      rw [hl] at h
      dsimp only at h
      injection h with h
      subst h
      rw [blookup_binsert]
      by_cases hw : w = v
      · subst hw
        rw [if_pos rfl, if_pos ⟨rfl, hl⟩]
      · rw [if_neg hw, if_neg (by
          rintro ⟨hv, _⟩
          injection hv with hv
          exact hw hv.symm)]
    | some val =>
      simp only [stepAttr] at h
      rw [hl] at h
      dsimp only at h
      by_cases he : val = Value.entity fv
      · rw [if_pos he] at h
        injection h with h
        subst h
        rw [if_neg (by
          rintro ⟨hv, hn⟩
          injection hv with hv
          rw [hv.symm] at hn
          rw [hn] at hl
          cases hl)]
      · rw [if_neg he] at h; cases h

theorem stepValue_some_lookup (env : Binding) (t : Term Value) (fv : Value)
    (acc d : Binding) (h : stepValue env t fv acc = some d) (w : Var) :
    blookup d w =
      if t = Term.Unbound w ∧ blookup env w = none
      then some fv else blookup acc w := by
  cases t with
  | Bound x =>
    simp only [stepValue] at h
    by_cases he : x = fv
    · rw [if_pos he] at h
      injection h with h
      subst h
      rw [if_neg (by simp)]
    · rw [if_neg he] at h; cases h
  | Unbound v =>
    cases hl : blookup env v with
    | none =>
      simp only [stepValue] at h
      rw [hl] at h
      dsimp only at h
      injection h with h
      subst h
      rw [blookup_binsert]
      by_cases hw : w = v
      · subst hw
        rw [if_pos rfl, if_pos ⟨rfl, hl⟩]
      · rw [if_neg hw, if_neg (by
          rintro ⟨hv, _⟩
          injection hv with hv
          exact hw hv.symm)]
    | some val =>
      simp only [stepValue] at h
      rw [hl] at h
      dsimp only at h
      by_cases he : val = fv
      · rw [if_pos he] at h
        injection h with h
        subst h
        rw [if_neg (by
          rintro ⟨hv, hn⟩
          injection hv with hv
          rw [hv.symm] at hn
          rw [hn] at hl
          cases hl)]
      · rw [if_neg he] at h; cases h

theorem unify_isSome_iff (env : Binding) (idents : IdentMap)
    (clause : Clause) (record : Record) :
    (unify env idents clause record).isSome = true ↔
      (∀ e, clause.entity = Term.Bound e → e = record.entity) ∧
      (∀ v val, clause.entity = Term.Unbound v → blookup env v = some val →
        val = Value.entity record.entity) ∧
      (∀ a, clause.attr = Term.Bound a →
        idents.get_entity a = some record.attr) ∧
      (∀ v val, clause.attr = Term.Unbound v → blookup env v = some val →
        val = Value.entity record.attr) ∧
      (∀ x, clause.value = Term.Bound x → x = record.value) ∧
      (∀ v val, clause.value = Term.Unbound v → blookup env v = some val →
        val = record.value) := by
  unfold unify
  cases hE : stepEntity env clause.entity record.entity [] with
  | none =>
    have h1 := stepEntity_isSome env clause.entity record.entity []
    rw [hE] at h1
    simp only [Option.isSome_none, Bool.false_eq_true, false_iff] at h1
    simp only [Option.none_bind, Option.isSome_none, Bool.false_eq_true,
      false_iff]
    intro hc
    exact h1 ⟨hc.1, hc.2.1⟩
  | some acc1 =>
    have h1 := stepEntity_isSome env clause.entity record.entity []
    rw [hE] at h1
    simp only [Option.isSome_some, true_iff] at h1
    simp only [Option.some_bind]
    cases hA : stepAttr env idents clause.attr record.attr acc1 with
    | none =>
      have h2 := stepAttr_isSome env idents clause.attr record.attr acc1
      rw [hA] at h2
      simp only [Option.isSome_none, Bool.false_eq_true, false_iff] at h2
      simp only [Option.none_bind, Option.isSome_none, Bool.false_eq_true,
        false_iff]
      intro hc
      exact h2 ⟨hc.2.2.1, hc.2.2.2.1⟩
    | some acc2 =>
      have h2 := stepAttr_isSome env idents clause.attr record.attr acc1
      rw [hA] at h2
      simp only [Option.isSome_some, true_iff] at h2
      simp only [Option.some_bind]
      rw [stepValue_isSome env clause.value record.value acc2]
      constructor
      · intro hc
        exact ⟨h1.1, h1.2, h2.1, h2.2, hc.1, hc.2⟩
      · intro hc
        exact ⟨hc.2.2.2.2.1, hc.2.2.2.2.2⟩

theorem unify_some_lookup (env : Binding) (idents : IdentMap)
    (clause : Clause) (record : Record) :
    ∀ d, unify env idents clause record = some d → ∀ w,
      blookup d w =
        if clause.value = Term.Unbound w ∧ blookup env w = none
        then some record.value
        else if clause.attr = Term.Unbound w ∧ blookup env w = none
        then some (Value.entity record.attr)
        else if clause.entity = Term.Unbound w ∧ blookup env w = none
        then some (Value.entity record.entity)
        else none := by
  intro d h w
  unfold unify at h
  cases hE : stepEntity env clause.entity record.entity [] with
  | none => rw [hE] at h; cases h
  | some acc1 =>
    rw [hE] at h
    simp only [Option.some_bind] at h
    cases hA : stepAttr env idents clause.attr record.attr acc1 with
    | none => rw [hA] at h; cases h
    | some acc2 =>
      rw [hA] at h
      simp only [Option.some_bind] at h
      rw [stepValue_some_lookup env clause.value record.value acc2 d h w,
        stepAttr_some_lookup env idents clause.attr record.attr acc1 acc2
          hA w,
        stepEntity_some_lookup env clause.entity record.entity [] acc1
          hE w]
      rfl

/-- C3 (amended): `unify` succeeds exactly when every bound clause term
matches the record's field (the attribute name after ident resolution,
failing on unknown names) and every unbound variable already in the binding
maps to the record's field wrapped into a `Value` (`Value::Entity` in the
entity and attribute positions).  The returned delta has exactly one entry
per unbound clause variable not already in the binding and none for bound
variables; each such entry holds the record's wrapped field for the *last*
position (entity, then attribute, then value) in which the variable occurs —
for a clause whose unbound variables are distinct, that is the variable's own
position's field.  (The original per-position reading fails when one
variable occurs in two positions; see the counterexample.) -/
theorem c3_unify (env : Binding) (idents : IdentMap) (clause : Clause)
    (record : Record) :
    ((unify env idents clause record).isSome = true ↔
      (∀ e, clause.entity = Term.Bound e → e = record.entity) ∧
      (∀ v val, clause.entity = Term.Unbound v → blookup env v = some val →
        val = Value.entity record.entity) ∧
      (∀ a, clause.attr = Term.Bound a →
        idents.get_entity a = some record.attr) ∧
      (∀ v val, clause.attr = Term.Unbound v → blookup env v = some val →
        val = Value.entity record.attr) ∧
      (∀ x, clause.value = Term.Bound x → x = record.value) ∧
      (∀ v val, clause.value = Term.Unbound v → blookup env v = some val →
        val = record.value)) ∧
    (∀ d, unify env idents clause record = some d → ∀ w,
      blookup d w =
        if clause.value = Term.Unbound w ∧ blookup env w = none
        then some record.value
        else if clause.attr = Term.Unbound w ∧ blookup env w = none
        then some (Value.entity record.attr)
        else if clause.entity = Term.Unbound w ∧ blookup env w = none
        then some (Value.entity record.entity)
        else none) :=
  ⟨unify_isSome_iff env idents clause record,
    unify_some_lookup env idents clause record⟩

/-- C3 witness: the delta `unify` returns for `(?x, a, ?y)` (distinct
variables, empty binding) binds `x` to the wrapped entity and `y` to the
record's value, by the theorem's lookup characterisation. -/
theorem c3_unify_witness :
    blookup [("y", Value.str "hi"), ("x", Value.entity 0)] "x" =
      some (Value.entity 0) ∧
    blookup [("y", Value.str "hi"), ("x", Value.entity 0)] "y" =
      some (Value.str "hi") := by
  have h2 := (c3_unify [] ⟨[("a", 7)]⟩
      ⟨Term.Unbound "x", Term.Bound "a", Term.Unbound "y"⟩
      ⟨0, 7, .str "hi", 0⟩).2
      [("y", Value.str "hi"), ("x", Value.entity 0)] (by decide)
  constructor
  · rw [h2 "x"]; decide
  · rw [h2 "y"]; decide

/-- C3 counterexample: with the repeated variable `?x` in the entity and
value positions (not in the binding), `unify` returns a delta binding `x` to
the *value* position's field, not the entity position's wrapped entity as
the claim's per-position reading demands. -/
theorem c3_counterexample :
    unify [] ⟨[("a", 7)]⟩
        ⟨Term.Unbound "x", Term.Bound "a", Term.Unbound "x"⟩
        ⟨0, 7, .str "hi", 0⟩ =
      some [("x", Value.str "hi")] ∧
    blookup [("x", Value.str "hi")] "x" ≠ some (Value.entity 0) := by
  exact ⟨by decide, by decide⟩

/-! ### records_matching error paths (C7, C8) -/

theorem substEntityTerm_bound (env : Binding) (e : Nat) :
    substEntityTerm env (Term.Bound e) = .ok (Term.Bound e) := rfl

theorem substEntityTerm_free (env : Binding) (u : Var)
    (hu : blookup env u = none) :
    substEntityTerm env (Term.Unbound u) = .ok (Term.Unbound u) := by
  unfold substEntityTerm
  dsimp only
  rw [hu]

theorem substAttrTerm_free (env : Binding) (u : Var)
    (hu : blookup env u = none) :
    substAttrTerm env (Term.Unbound u) = .ok (Term.Unbound u) := by
  unfold substAttrTerm
  dsimp only
  rw [hu]

theorem substValueTerm_free (env : Binding) (u : Var)
    (hu : blookup env u = none) :
    substValueTerm env (Term.Unbound u) = .ok (Term.Unbound u) := by
  unfold substValueTerm
  dsimp only
  rw [hu]

theorem substEntityTerm_mismatch (env : Binding) (u : Var) (val : Value)
    (hu : blookup env u = some val) (hne : ∀ e, val ≠ Value.entity e) :
    substEntityTerm env (Term.Unbound u) = .error "type mismatch" := by
  unfold substEntityTerm
  dsimp only
  rw [hu]
  cases val with
  | entity e => exact absurd rfl (hne e)
  | str s => rfl
  | ident s => rfl
  | timestamp t => rfl

theorem substAttrTerm_mismatch (env : Binding) (u : Var) (val : Value)
    (hu : blookup env u = some val) (hne : ∀ s, val ≠ Value.str s) :
    substAttrTerm env (Term.Unbound u) = .error "type mismatch" := by
  unfold substAttrTerm
  dsimp only
  rw [hu]
  cases val with
  | str s => exact absurd rfl (hne s)
  | entity e => rfl
  | ident s => rfl
  | timestamp t => rfl

theorem substitute_ubb (binding : Binding) (u : Var) (a : String) (v : Value)
    (hu : blookup binding u = none) :
    Clause.substitute ⟨Term.Unbound u, Term.Bound a, Term.Bound v⟩ binding =
      .ok ⟨Term.Unbound u, Term.Bound a, Term.Bound v⟩ := by
  unfold Clause.substitute
  rw [show (⟨Term.Unbound u, Term.Bound a, Term.Bound v⟩ : Clause).entity =
    Term.Unbound u from rfl, substEntityTerm_free binding u hu]
  rfl

theorem substitute_bbu (binding : Binding) (e : Nat) (a : String) (v : Var)
    (hv : blookup binding v = none) :
    Clause.substitute ⟨Term.Bound e, Term.Bound a, Term.Unbound v⟩ binding =
      .ok ⟨Term.Bound e, Term.Bound a, Term.Unbound v⟩ := by
  unfold Clause.substitute
  rw [show (⟨Term.Bound e, Term.Bound a, Term.Unbound v⟩ : Clause).value =
    Term.Unbound v from rfl, substValueTerm_free binding v hv]
  rfl

theorem substitute_bbb (binding : Binding) (e : Nat) (a : String) (v : Value) :
    Clause.substitute ⟨Term.Bound e, Term.Bound a, Term.Bound v⟩ binding =
      .ok ⟨Term.Bound e, Term.Bound a, Term.Bound v⟩ := rfl

theorem unify_bound_attr_none (binding : Binding) (idents : IdentMap)
    (cl : Clause) (a : String) (hcl : cl.attr = Term.Bound a)
    (ha : idents.get_entity a = none) (r : Record) :
    (unify binding idents cl r).isSome = false := by
  cases hs : (unify binding idents cl r).isSome
  · rfl
  · exfalso
    have hc := (unify_isSome_iff binding idents cl r).mp hs
    have hres := hc.2.2.1 a hcl
    rw [ha] at hres
    cases hres

/-- C7 (amended): a clause whose (post-substitution) attribute name has no
ident-map entry makes `records_matching` fail with the "invalid attribute"
error in the two index-optimized shapes `(?e, a, v)` and `(e, a, ?v)`; in the
full-scan fallthrough shapes the unknown attribute is *not* an error — a
fully bound clause with an unknown attribute scans and returns `Ok` with no
records, because the unifier rejects every record.  (The original claim said
every shape errors; the counterexample refutes that for the fallthrough.) -/
theorem c7_unknown_attribute (db : Db) (binding : Binding) (a : String)
    (ha : db.idents.get_entity a = none) :
    (∀ u v, blookup binding u = none →
      db.records_matching ⟨Term.Unbound u, Term.Bound a, Term.Bound v⟩
        binding = .error "invalid attribute") ∧
    (∀ e v, blookup binding v = none →
      db.records_matching ⟨Term.Bound e, Term.Bound a, Term.Unbound v⟩
        binding = .error "invalid attribute") ∧
    (∀ e v, db.records_matching ⟨Term.Bound e, Term.Bound a, Term.Bound v⟩
        binding = .ok []) := by
  refine ⟨?_, ?_, ?_⟩
  · intro u v hu
    unfold Db.records_matching
    rw [substitute_ubb binding u a v hu]
    dsimp only
    rw [ha]
  · intro e v hv
    unfold Db.records_matching
    rw [substitute_bbu binding e a v hv]
    dsimp only
    rw [ha]
  · intro e v
    unfold Db.records_matching
    rw [substitute_bbb binding e a v]
    dsimp only
    rw [List.filter_eq_nil_iff.mpr ?_]
    intro r _
    rw [unify_bound_attr_none binding db.idents _ a rfl ha r]
    simp

/-- C7 witness: on the bootstrap database, the AVET-shaped clause with the
unknown attribute "nope" fails with the invalid-attribute error. -/
theorem c7_unknown_attribute_witness :
    (Db.new DbContents.fresh 0).1.records_matching
        ⟨Term.Unbound "u", Term.Bound "nope", Term.Bound (Value.str "x")⟩ [] =
      .error "invalid attribute" :=
  (c7_unknown_attribute (Db.new DbContents.fresh 0).1 [] "nope"
    (by decide)).1 "u" (Value.str "x") (by decide)

/-- C7 counterexample: the fully bound fallthrough shape with the unknown
attribute "nope" does not fail — it returns `Ok` with no records — refuting
"for every clause shape, including the full-scan fallthrough cases". -/
theorem c7_counterexample :
    (Db.new DbContents.fresh 0).1.records_matching
        ⟨Term.Bound 0, Term.Bound "nope", Term.Bound (Value.str "x")⟩ [] =
      .ok [] ∧
    (Db.new DbContents.fresh 0).1.idents.get_entity "nope" = none :=
  ⟨rfl, rfl⟩

/-- The database the Rust tests build (`test_db()`, `src/db.rs:338`): a
fresh in-memory store, the setup transaction
`{db:ident name} {db:ident parent} {db:ident Hello}`, then the four sample
facts, with fixed clock values standing in for `UTC::now()`. -/
def testDb : Db :=
  (((Db.new DbContents.fresh 50).1.transact DbContents.fresh
      ⟨[.NewEntity [("db:ident", .ident "name")],
        .NewEntity [("db:ident", .ident "parent")],
        .NewEntity [("db:ident", .ident "Hello")]]⟩ 100).1.transact
    ((Db.new DbContents.fresh 50).1.transact DbContents.fresh
      ⟨[.NewEntity [("db:ident", .ident "name")],
        .NewEntity [("db:ident", .ident "parent")],
        .NewEntity [("db:ident", .ident "Hello")]]⟩ 100).2.1
    ⟨[.Addition ⟨0, "name", .str "Bob"⟩, .Addition ⟨1, "name", .str "John"⟩,
      .Addition ⟨2, "Hello", .str "World"⟩,
      .Addition ⟨1, "parent", .entity 0⟩]⟩ 200).1

/-- C8: when substitution resolves a clause variable to a value whose tag is
incompatible with the position, `records_matching` fails with the
"type mismatch" error — a non-entity value in the entity position, or a
non-string value in the attribute position; in particular the test query
`find ?e ?n where (?e name ?n) (?n name "hi")` fails with that error on the
test database. -/
theorem c8_type_mismatch (db : Db) (binding : Binding) :
    (∀ u val (att : Term String) (v : Term Value),
      blookup binding u = some val → (∀ e, val ≠ Value.entity e) →
      db.records_matching ⟨Term.Unbound u, att, v⟩ binding =
        .error "type mismatch") ∧
    (∀ e u val (v : Term Value),
      blookup binding u = some val → (∀ s, val ≠ Value.str s) →
      db.records_matching ⟨Term.Bound e, Term.Unbound u, v⟩ binding =
        .error "type mismatch") ∧
    testDb.query ⟨["e", "n"],
      [⟨Term.Unbound "e", Term.Bound "name", Term.Unbound "n"⟩,
       ⟨Term.Unbound "n", Term.Bound "name", Term.Bound (.str "hi")⟩]⟩ =
      .error "type mismatch" := by
  refine ⟨?_, ?_, ?_⟩
  · intro u val att v hu hne
    unfold Db.records_matching Clause.substitute
    dsimp only
    rw [substEntityTerm_mismatch binding u val hu hne]
  · intro e u val v hu hne
    unfold Db.records_matching Clause.substitute
    dsimp only
    rw [substEntityTerm_bound binding e]
    dsimp only
    rw [substAttrTerm_mismatch binding u val hu hne]
  · rfl

/-- C8 witness: a binding sending `?n` to a string makes the entity-position
substitution of clause `(?n, name, "hi")` fail with the type-mismatch
error. -/
theorem c8_type_mismatch_witness :
    testDb.records_matching
        ⟨Term.Unbound "n", Term.Bound "name", Term.Bound (.str "hi")⟩
        [("n", Value.str "Bob")] =
      .error "type mismatch" :=
  (c8_type_mismatch testDb [("n", Value.str "Bob")]).1 "n"
    (Value.str "Bob") (Term.Bound "name") (Term.Bound (.str "hi"))
    (by decide) (by intro e h; cases h)

/-! ### Index range scans refine the unifier filter (C5) -/

theorem lex_between {α β : Type} [LinearOrder α] [LinearOrder β]
    (a b : α) (u v w : β)
    (h1 : toLex (a, u) ≤ toLex (b, v)) (h2 : toLex (b, v) ≤ toLex (a, w)) :
    b = a ∧ u ≤ v ∧ v ≤ w := by
  rcases (Prod.Lex.le_iff _ _).mp h1 with hlt1 | ⟨heq1, hle1⟩ <;>
    rcases (Prod.Lex.le_iff _ _).mp h2 with hlt2 | ⟨heq2, hle2⟩
  · exact absurd (lt_trans hlt1 hlt2) (lt_irrefl a)
  · rw [heq2] at hlt1
    exact absurd hlt1 (lt_irrefl a)
  · rw [heq1] at hlt2
    exact absurd hlt2 (lt_irrefl b)
  · exact ⟨heq1.symm, hle1, hle2⟩

theorem keyE_start_le (e attr : Nat) (r : Record) (h1 : r.entity = e)
    (h2 : r.attr = attr) : keyE ⟨e, attr, Value.str "", 0⟩ ≤ keyE r := by
  subst h1; subst h2
  unfold keyE
  apply (Prod.Lex.le_iff _ _).mpr
  right
  refine ⟨rfl, ?_⟩
  apply (Prod.Lex.le_iff _ _).mpr
  right
  refine ⟨rfl, ?_⟩
  rcases (vkey_str_empty_le r.value).lt_or_eq with h | h
  · exact (Prod.Lex.le_iff _ _).mpr (Or.inl h)
  · exact (Prod.Lex.le_iff _ _).mpr (Or.inr ⟨h, Nat.zero_le _⟩)

theorem keyE_sandwich (e attr : Nat) (r r' : Record)
    (hp : r'.entity = e ∧ r'.attr = attr)
    (h1 : keyE ⟨e, attr, Value.str "", 0⟩ ≤ keyE r)
    (h2 : keyE r ≤ keyE r') :
    r.entity = e ∧ r.attr = attr := by
  obtain ⟨he, ha⟩ := hp
  unfold keyE at h1 h2
  rw [he, ha] at h2
  have l1 := lex_between e r.entity _ _ _ h1 h2
  have l2 := lex_between attr r.attr _ _ _ l1.2.1 l1.2.2
  exact ⟨l1.1, l2.1⟩

theorem keyAv_start_le (attr : Nat) (v : Value) (r : Record)
    (h1 : r.attr = attr) (h2 : r.value = v) :
    keyAv ⟨0, attr, v, 0⟩ ≤ keyAv r := by
  subst h1; subst h2
  unfold keyAv
  apply (Prod.Lex.le_iff _ _).mpr
  right
  refine ⟨rfl, ?_⟩
  apply (Prod.Lex.le_iff _ _).mpr
  right
  refine ⟨rfl, ?_⟩
  apply (Prod.Lex.le_iff _ _).mpr
  rcases Nat.eq_zero_or_pos r.entity with h | h
  · exact Or.inr ⟨h.symm, Nat.zero_le _⟩
  · exact Or.inl h

theorem keyAv_sandwich (attr : Nat) (v : Value) (r r' : Record)
    (hp : r'.attr = attr ∧ r'.value = v)
    (h1 : keyAv ⟨0, attr, v, 0⟩ ≤ keyAv r) (h2 : keyAv r ≤ keyAv r') :
    r.attr = attr ∧ r.value = v := by
  obtain ⟨ha, hv⟩ := hp
  unfold keyAv at h1 h2
  rw [ha, hv] at h2
  have l1 := lex_between attr r.attr _ _ _ h1 h2
  have l2 := lex_between (vkey v) (vkey r.value) _ _ _ l1.2.1 l1.2.2
  exact ⟨l1.1, vkey_injective l2.1⟩

theorem unify_eav_shape (binding : Binding) (idents : IdentMap) (e : Nat)
    (a : String) (v : Var) (attr : Nat) (r : Record)
    (hv : blookup binding v = none) (hga : idents.get_entity a = some attr) :
    (unify binding idents ⟨Term.Bound e, Term.Bound a, Term.Unbound v⟩
        r).isSome =
      (decide (r.entity = e) && decide (r.attr = attr)) := by
  by_cases hm : r.entity = e ∧ r.attr = attr
  · obtain ⟨h1, h2⟩ := hm
    have hs : (unify binding idents ⟨Term.Bound e, Term.Bound a,
        Term.Unbound v⟩ r).isSome = true := by
      apply (unify_isSome_iff binding idents _ r).mpr
      refine ⟨?_, ?_, ?_, ?_, ?_, ?_⟩
      · intro e' he'
        injection he' with he'
        rw [← he']
        exact h1.symm
      · intro v1 val hq
        cases hq
      · intro a' ha'
        injection ha' with ha'
        rw [← ha', hga, h2]
      · intro v1 val hq
        cases hq
      · intro x hx
        cases hx
      · intro v1 val hq hlook
        injection hq with hq
        rw [← hq, hv] at hlook
        cases hlook
    rw [hs]
    simp [h1, h2]
  · have hs : ¬((unify binding idents ⟨Term.Bound e, Term.Bound a,
        Term.Unbound v⟩ r).isSome = true) := by
      intro hsome
      have hc := (unify_isSome_iff binding idents _ r).mp hsome
      have he := hc.1 e rfl
      have ha := hc.2.2.1 a rfl
      rw [hga] at ha
      injection ha with ha
      exact hm ⟨he.symm, ha.symm⟩
    rw [Bool.not_eq_true] at hs
    rw [hs]
    have : ¬(r.entity = e ∧ r.attr = attr) := hm
    rcases Decidable.not_and_iff_or_not.mp this with h | h <;>
      simp [h]

theorem unify_ave_shape (binding : Binding) (idents : IdentMap) (u : Var)
    (a : String) (v : Value) (attr : Nat) (r : Record)
    (hu : blookup binding u = none) (hga : idents.get_entity a = some attr) :
    (unify binding idents ⟨Term.Unbound u, Term.Bound a, Term.Bound v⟩
        r).isSome =
      (decide (r.attr = attr) && decide (r.value = v)) := by
  by_cases hm : r.attr = attr ∧ r.value = v
  · obtain ⟨h1, h2⟩ := hm
    have hs : (unify binding idents ⟨Term.Unbound u, Term.Bound a,
        Term.Bound v⟩ r).isSome = true := by
      apply (unify_isSome_iff binding idents _ r).mpr
      refine ⟨?_, ?_, ?_, ?_, ?_, ?_⟩
      · intro e' he'
        cases he'
      · intro v1 val hq hlook
        injection hq with hq
        rw [← hq, hu] at hlook
        cases hlook
      · intro a' ha'
        injection ha' with ha'
        rw [← ha', hga, h1]
      · intro v1 val hq
        cases hq
      · intro x hx
        injection hx with hx
        rw [← hx]
        exact h2.symm
      · intro v1 val hq
        cases hq
    rw [hs]
    simp [h1, h2]
  · have hs : ¬((unify binding idents ⟨Term.Unbound u, Term.Bound a,
        Term.Bound v⟩ r).isSome = true) := by
      intro hsome
      have hc := (unify_isSome_iff binding idents _ r).mp hsome
      have ha := hc.2.2.1 a rfl
      rw [hga] at ha
      injection ha with ha
      have hx := hc.2.2.2.2.1 v rfl
      exact hm ⟨ha.symm, hx.symm⟩
    rw [Bool.not_eq_true] at hs
    rw [hs]
    have : ¬(r.attr = attr ∧ r.value = v) := hm
    rcases Decidable.not_and_iff_or_not.mp this with h | h <;>
      simp [h]

theorem filter_perm_of_agree (db : Db) (hsort : IndexesSorted db)
    (hagree : IndexesAgree db) (p : Record → Bool) :
    (db.ave.filter p).Perm (db.eav.filter p) := by
  have ndE : db.eav.Nodup :=
    nodup_of_pairwise_lt keyE _ ((sortedE_iff _).mp hsort.1)
  have ndAv : db.ave.Nodup :=
    nodup_of_pairwise_lt keyAv _ ((sortedAv_iff _).mp hsort.2.1)
  refine List.perm_of_nodup_nodup_toFinset_eq (List.Nodup.filter p ndAv)
    (List.Nodup.filter p ndE) ?_
  ext x
  simp only [List.mem_toFinset, List.mem_filter]
  constructor
  · rintro ⟨hx, hp⟩
    exact ⟨hagree.2.1 x hx, hp⟩
  · rintro ⟨hx, hp⟩
    exact ⟨(hagree.1 x hx).1, hp⟩

/-- C5: on a database whose indexes are sorted and agree (as any reachable
state is), the `(e, a, ?v)` clause shape is answered by the EAVT range scan
starting at `(e, a, String "", tx 0)` with its take-while cutoff, and
returns exactly the full EAVT scan filtered by the unifier — equivalently,
all records with that entity and attribute; likewise the `(?e, a, v)` shape
is answered by the AVET range scan and returns exactly the records with that
attribute and value, a permutation (the index orders differ) of the
unifier-filtered full scan. -/
theorem c5_range_scan (db : Db) (binding : Binding)
    (hsort : IndexesSorted db) (hagree : IndexesAgree db) :
    (∀ e a v attr, blookup binding v = none →
      db.idents.get_entity a = some attr →
      db.records_matching ⟨Term.Bound e, Term.Bound a, Term.Unbound v⟩
          binding =
        .ok (db.eav.filter (fun r => (unify binding db.idents
          ⟨Term.Bound e, Term.Bound a, Term.Unbound v⟩ r).isSome)) ∧
      db.records_matching ⟨Term.Bound e, Term.Bound a, Term.Unbound v⟩
          binding =
        .ok (db.eav.filter (fun r =>
          decide (r.entity = e) && decide (r.attr = attr)))) ∧
    (∀ u a v attr, blookup binding u = none →
      db.idents.get_entity a = some attr →
      db.records_matching ⟨Term.Unbound u, Term.Bound a, Term.Bound v⟩
          binding =
        .ok (db.ave.filter (fun r => (unify binding db.idents
          ⟨Term.Unbound u, Term.Bound a, Term.Bound v⟩ r).isSome)) ∧
      db.records_matching ⟨Term.Unbound u, Term.Bound a, Term.Bound v⟩
          binding =
        .ok (db.ave.filter (fun r =>
          decide (r.attr = attr) && decide (r.value = v))) ∧
      (db.ave.filter (fun r => (unify binding db.idents
          ⟨Term.Unbound u, Term.Bound a, Term.Bound v⟩ r).isSome)).Perm
        (db.eav.filter (fun r => (unify binding db.idents
          ⟨Term.Unbound u, Term.Bound a, Term.Bound v⟩ r).isSome))) := by
  constructor
  · intro e a v attr hv hga
    have hmain : db.records_matching ⟨Term.Bound e, Term.Bound a,
        Term.Unbound v⟩ binding =
        .ok (db.eav.filter (fun r =>
          decide (r.entity = e) && decide (r.attr = attr))) := by
      unfold Db.records_matching
      rw [substitute_bbu binding e a v hv]
      dsimp only
      rw [hga]
      dsimp only
      congr 1
      exact rangeScan_eq_filter keyE Record.ltbE ltbE_iff
        (fun r => decide (r.entity = e) && decide (r.attr = attr))
        ⟨e, attr, Value.str "", 0⟩
        (fun r hp => by
          simp only [Bool.and_eq_true, decide_eq_true_eq] at hp
          exact keyE_start_le e attr r hp.1 hp.2)
        (fun r r' hp' hs1 hs2 => by
          simp only [Bool.and_eq_true, decide_eq_true_eq] at hp' ⊢
          exact keyE_sandwich e attr r r' hp' hs1 hs2)
        db.eav ((sortedE_iff _).mp hsort.1)
    refine ⟨?_, hmain⟩
    rw [hmain]
    congr 1
    exact (List.filter_congr (fun r _ =>
      unify_eav_shape binding db.idents e a v attr r hv hga)).symm
  · intro u a v attr hu hga
    have hmain : db.records_matching ⟨Term.Unbound u, Term.Bound a,
        Term.Bound v⟩ binding =
        .ok (db.ave.filter (fun r =>
          decide (r.attr = attr) && decide (r.value = v))) := by
      unfold Db.records_matching
      rw [substitute_ubb binding u a v hu]
      dsimp only
      rw [hga]
      dsimp only
      congr 1
      exact rangeScan_eq_filter keyAv Record.ltbAv ltbAv_iff
        (fun r => decide (r.attr = attr) && decide (r.value = v))
        ⟨0, attr, v, 0⟩
        (fun r hp => by
          simp only [Bool.and_eq_true, decide_eq_true_eq] at hp
          exact keyAv_start_le attr v r hp.1 hp.2)
        (fun r r' hp' hs1 hs2 => by
          simp only [Bool.and_eq_true, decide_eq_true_eq] at hp' ⊢
          exact keyAv_sandwich attr v r r' hp' hs1 hs2)
        db.ave ((sortedAv_iff _).mp hsort.2.1)
    have hcong : db.ave.filter (fun r => (unify binding db.idents
        ⟨Term.Unbound u, Term.Bound a, Term.Bound v⟩ r).isSome) =
        db.ave.filter (fun r =>
          decide (r.attr = attr) && decide (r.value = v)) :=
      List.filter_congr (fun r _ =>
        unify_ave_shape binding db.idents u a v attr r hu hga)
    refine ⟨?_, hmain, ?_⟩
    · rw [hmain, hcong]
    · exact filter_perm_of_agree db hsort hagree _

/-- C5 witness: on the bootstrap database, the EAVT-shaped clause
`(1, db:ident, ?x)` returns exactly the one record of entity 1, and the
AVET-shaped clause `(?x, db:ident, Ident "db:txInstant")` returns exactly
the one record with that attribute and value. -/
theorem c5_range_scan_witness :
    (Db.new DbContents.fresh 0).1.records_matching
        ⟨Term.Bound 1, Term.Bound "db:ident", Term.Unbound "x"⟩ [] =
      .ok [⟨1, 1, .ident "db:ident", 0⟩] ∧
    (Db.new DbContents.fresh 0).1.records_matching
        ⟨Term.Unbound "x", Term.Bound "db:ident",
          Term.Bound (.ident "db:txInstant")⟩ [] =
      .ok [⟨2, 1, .ident "db:txInstant", 0⟩] := by
  constructor
  · have h := ((c5_range_scan (Db.new DbContents.fresh 0).1 []
        ⟨by decide, by decide, by decide⟩
        ⟨by decide, by decide, by decide⟩).1
        1 "db:ident" "x" 1 (by decide) (by decide)).2
    rw [h]
    rfl
  · have h := ((c5_range_scan (Db.new DbContents.fresh 0).1 []
        ⟨by decide, by decide, by decide⟩
        ⟨by decide, by decide, by decide⟩).2
        "x" "db:ident" (.ident "db:txInstant") 1 (by decide)
        (by decide)).2.1
    rw [h]
    rfl

end Logos
